import Mathlib

/-!
Verification of the swarm/network/kademlia routing table
(`src/swarm/network/kademlia/kademlia.go`).

The Go code is shallowly embedded: the table state is a structure of pure
values, every mutating method becomes a function from states to states, Go
`int` fields become `Int`, Go slices become `List`, and durations/instants
become `Int` (the `On` operation receives the current time `now` as an
explicit argument; `time.Since(t)` is `now - t`).

`Address`, `proximity` and `ProxCmp` live in `address.go`, and the node
registry (`KadDb`) lives in `kaddb.go`; neither file is present under
`src/`, so those pieces are modelled from the spec (each such definition
carries a doc comment starting `Modelled from the spec:`).  Everything in
`kademlia.go` itself is translated directly from the source.
-/

set_option maxRecDepth 40000

namespace Kad

/-- Modelled from the spec: an `Address` is "a fixed-length opaque
bit-string".  We represent it as a natural number below `2 ^ addrBits`,
read as a big-endian bit string of length `addrBits`. -/
abbrev Address := Nat

/-- Modelled from the spec: addresses in the implementation are 256-bit
values (32-byte hashes). -/
def addrBits : Nat := 256

/-- Number of bits of `n` (the position of the highest set bit plus one),
computed with an explicit gas so that it is structurally recursive; the
gas is an upper bound on the bit count of the argument. -/
def bitlen : Nat → Nat → Nat
  | 0, _ => 0
  | gas + 1, n => if n = 0 then 0 else bitlen gas (n / 2) + 1

/-- Modelled from the spec: the proximity order of two addresses is "the
length of their common bit-prefix".  In the big-endian width-`addrBits`
representations, the common prefix ends at the highest set bit of
`a ^^^ b`, so its length is `addrBits` minus the bit-length of the XOR
(equal addresses share the whole prefix). -/
def proximity (a b : Address) : Nat :=
  addrBits - bitlen addrBits (a ^^^ b)

/-- Modelled from the spec: `target.ProxCmp(a, b)` (in `address.go`,
absent from `src/`) compares the true distances of `a` and `b` to
`target`: negative when `a` is closer, positive when `b` is closer, zero
when the distances are equal.  True XOR distance of fixed-width
bit-strings compared lexicographically is numeric comparison of the XOR
values. -/
def ProxCmp (target a b : Address) : Int :=
  if a ^^^ target < b ^^^ target then -1
  else if b ^^^ target < a ^^^ target then 1
  else 0

/-- The `Node` interface of `kademlia.go` (`Addr`, `URL`, `LastActive`,
`Drop`): the data the table reads from a peer.  `Drop` is a side effect;
which peer was dropped is reported in `OnResult.dropped` below. -/
structure Node where
  addr : Address
  url : String
  lastActive : Int
deriving DecidableEq, Repr

/-- Modelled from the spec: a `NodeRecord` (owned by the registry in
`kaddb.go`, absent from `src/`) holds "address, last-known URL/endpoint,
and (while connected) a back-reference to the live Peer (nil when
disconnected)". -/
structure NodeRecord where
  addr : Address
  url : String
  node : Option Node
deriving DecidableEq, Repr

/-- The `KadParams` fields the table itself consumes.  `PurgeInterval`,
`InitialRetryInterval` and `ConnRetryExp` are consumed only by the
out-of-scope reconnection scheduler and are omitted. -/
structure KadParams where
  maxProx : Nat
  proxBinSize : Nat
  bucketSize : Nat
  maxIdleInterval : Int
deriving DecidableEq, Repr

/-- `NewDefaultKadParams` with the constants of `kademlia.go`
(`maxProx = 8`, `proxBinSize = 2`, `bucketSize = 4`,
`maxIdleInterval = 42 * 1000 ms`). -/
def NewDefaultKadParams : KadParams :=
  { maxProx := 8, proxBinSize := 2, bucketSize := 4, maxIdleInterval := 42000 }

/-- `maxPeers` constant of `kademlia.go`. -/
def maxPeers : Nat := 100

/-- The `Kademlia` structure: base address, parameters, the mutable state
`proxLimit`, `proxSize`, `count`, the bucket array, and the registry
index (modelled from the spec as an association list of records keyed by
address).  The mutex and metrics counters are effect-only and omitted. -/
structure Kademlia where
  addr : Address
  params : KadParams
  proxLimit : Nat
  proxSize : Int
  count : Int
  buckets : List (List Node)
  db : List NodeRecord
deriving DecidableEq, Repr

/-- `New`: fresh table with `MaxProx + 1` empty buckets and an empty
registry. -/
def New (addr : Address) (params : KadParams) : Kademlia :=
  { addr := addr
    params := params
    proxLimit := 0
    proxSize := 0
    count := 0
    buckets := List.replicate (params.maxProx + 1) []
    db := [] }

/-- `proximityBin`: proximity of `other` to the base address, saturated
at `MaxProx` (from `kademlia.go`). -/
def proximityBin (k : Kademlia) (other : Address) : Nat :=
  min (proximity k.addr other) k.params.maxProx

/-- Modelled from the spec: registry lookup by address ("a mapping from
Address to NodeRecord (keys unique)"). -/
def dbFind (db : List NodeRecord) (addr : Address) : Option NodeRecord :=
  db.find? (fun r => r.addr == addr)

/-- Modelled from the spec: `FindOrCreate(bin, address, url)` "returns
the existing record for `address` if present; otherwise creates, indexes
(by address and by bin), and returns a new one.  Never fails."  The bin
only places the record in the registry's per-bin lists, which no claim
observes, so it is accepted and ignored here. -/
def findOrCreate (db : List NodeRecord) (_bin : Nat) (addr : Address)
    (url : String) : NodeRecord × List NodeRecord :=
  match dbFind db addr with
  | some r => (r, db)
  | none =>
    let r : NodeRecord := { addr := addr, url := url, node := none }
    (r, db ++ [r])

/-- Modelled from the spec: setting the record's live-peer back-reference
(`record.node = node` in the source mutates the record held in the
registry's index). -/
def dbSetNode (db : List NodeRecord) (addr : Address) (n : Option Node) :
    List NodeRecord :=
  db.map (fun r => if r.addr = addr then { r with node := n } else r)

/-- The contraction loop of `setProxLimit` (`on = true` branch):
`for proxSize >= ProxBinSize+curr && curr > 0 { proxSize -= curr;
proxLimit++; curr = len(buckets[proxLimit]) }`.  The gas is an upper
bound on the number of iterations: each iteration requires a non-empty
bucket at `proxLimit` (so `proxLimit < buckets.length`) and increments
`proxLimit`, hence at most `buckets.length - proxLimit` iterations run;
`contract` supplies exactly that gas, so the gas never runs out. -/
def contractGas (buckets : List (List Node)) (pbs : Int) :
    Nat → Int → Nat → Int × Nat
  | 0, proxSize, proxLimit => (proxSize, proxLimit)
  | gas + 1, proxSize, proxLimit =>
    let curr := (buckets.getD proxLimit []).length
    if proxSize ≥ pbs + curr ∧ 0 < curr then
      contractGas buckets pbs gas (proxSize - curr) (proxLimit + 1)
    else
      (proxSize, proxLimit)

/-- The contraction loop with its gas instantiated. -/
def contract (buckets : List (List Node)) (pbs : Int) (proxSize : Int)
    (proxLimit : Nat) : Int × Nat :=
  contractGas buckets pbs (buckets.length - proxLimit) proxSize proxLimit

/-- The expansion loop of `setProxLimit` (`on = false` branch):
`for (proxSize < ProxBinSize || r < proxLimit) && proxLimit > 0 {
proxLimit--; proxSize += len(buckets[proxLimit]) }`, structurally
recursive on `proxLimit` (which the loop guard keeps positive and each
iteration decrements). -/
def expand (buckets : List (List Node)) (pbs : Int) (r : Nat) :
    Int → Nat → Int × Nat
  | proxSize, 0 => (proxSize, 0)
  | proxSize, pl + 1 =>
    if proxSize < pbs ∨ r < pl + 1 then
      expand buckets pbs r (proxSize + (buckets.getD pl []).length) pl
    else
      (proxSize, pl + 1)

/-- `setProxLimit(r, on)` from `kademlia.go`: early return when the
change is below the core and leaves the bucket non-empty; otherwise
contract after an addition, or (after decrementing `proxSize` when the
removal was inside the core) expand after a removal. -/
def setProxLimit (k : Kademlia) (r : Nat) (isOn : Bool) : Kademlia :=
  if r < k.proxLimit ∧ 0 < (k.buckets.getD r []).length then k
  else if isOn then
    let s := contract k.buckets k.params.proxBinSize (k.proxSize + 1) k.proxLimit
    { k with proxSize := s.1, proxLimit := s.2 }
  else
    let ps0 := if r ≥ k.proxLimit then k.proxSize - 1 else k.proxSize
    let s := expand k.buckets k.params.proxBinSize r ps0 k.proxLimit
    { k with proxSize := s.1, proxLimit := s.2 }

/-- The idle-peer scan of `On`'s bucket-full branch: fold over the bucket
tracking the running maximum idle duration (seeded with
`MaxIdleInterval`), the position, and the peer found (`replaced`), with
strictly-greater comparison (`idleInt > idle`). -/
def scanLoop (now : Int) (idle : Int) (i : Nat) (best : Option (Nat × Node)) :
    List Node → Int × Option (Nat × Node)
  | [] => (idle, best)
  | p :: rest =>
    let idleInt := now - p.lastActive
    if idle < idleInt then scanLoop now idleInt (i + 1) (some (i, p)) rest
    else scanLoop now idle (i + 1) best rest

/-- The result of the scan: the position and peer to replace, or `none`
when no member is idle strictly beyond `MaxIdleInterval`. -/
def scanIdlest (now maxIdle : Int) (bucket : List Node) : Option (Nat × Node) :=
  (scanLoop now maxIdle 0 none bucket).2

/-- What `On` returns: the new table state, the error (`none` on
success), and the peer whose `Drop()` was invoked, if any. -/
structure OnResult where
  table : Kademlia
  err : Option String
  dropped : Option Node
deriving Repr

/-- `On(node, cb)` from `kademlia.go`: compute the bin, fetch-or-create
the registry record, run the callback (aborting on its error), then
either append (bucket below `BucketSize`: append, `setProxLimit(index,
true)`, set the record's live reference, `count++`) or replace the peer
idle longest beyond `MaxIdleInterval` in place (no `setProxLimit`), or
fail with "bucket full". -/
def On (k : Kademlia) (node : Node)
    (cb : Option (NodeRecord → Node → Option String)) (now : Int) : OnResult :=
  let index := proximityBin k node.addr
  let fr := findOrCreate k.db index node.addr node.url
  let record := fr.1
  let k0 := { k with db := fr.2 }
  let cbErr : Option String := match cb with
    | none => none
    | some f => f record node
  match cbErr with
  | some e => { table := k0, err := some e, dropped := none }
  | none =>
    let bucket := k0.buckets.getD index []
    if bucket.length < k0.params.bucketSize then
      let k1 := setProxLimit
        { k0 with buckets := k0.buckets.set index (bucket ++ [node]) } index true
      { table := { k1 with
          db := dbSetNode k1.db node.addr (some node)
          count := k1.count + 1 }
        err := none
        dropped := none }
    else
      match scanIdlest now k0.params.maxIdleInterval bucket with
      | none => { table := k0, err := some "bucket full", dropped := none }
      | some pd =>
        { table := { k0 with
            buckets := k0.buckets.set index (bucket.set pd.1 node)
            db := dbSetNode k0.db node.addr (some node)
            count := k0.count + 1 }
          err := none
          dropped := some pd.2 }

/-- The removal loop of `Off`: delete the first bucket member whose
address equals the leaving peer's; `none` when absent. -/
def removeFirst (addr : Address) : List Node → Option (List Node)
  | [] => none
  | p :: rest =>
    if p.addr = addr then some rest
    else (removeFirst addr rest).map (fun l => p :: l)

/-- `Off(node)` from `kademlia.go`: remove the peer from its bucket if
present (then `setProxLimit(index, false)`), look the record up in the
registry — a missing record makes the Go code dereference nil, modelled
as `none` — clear the record's live reference and decrement `count`
(unconditionally, even when the peer was absent from its bucket). -/
def Off (k : Kademlia) (node : Node) : Option Kademlia :=
  let index := proximityBin k node.addr
  let k1 := match removeFirst node.addr (k.buckets.getD index []) with
    | some bucket1 =>
      setProxLimit { k with buckets := k.buckets.set index bucket1 } index false
    | none => k
  match dbFind k1.db node.addr with
  | none => none
  | some _ =>
    some { k1 with db := dbSetNode k1.db node.addr none, count := k1.count - 1 }

/-- `sort.Search`'s contract instantiated by `push`: the first index at
which the predicate holds (the predicate is monotone on the sorted lists
`push` maintains), `len` when none does — exactly `List.findIdx`. -/
def searchIdx (target : Address) (node : Node) (nodes : List Node) : Nat :=
  nodes.findIdx (fun q => 0 ≤ ProxCmp target q.addr node.addr)

/-- `nodesByDistance.push(node, max)` from `kademlia.go`: find the
insertion index, append when below `max`, then shift the tail right by
one (discarding the last element) and write `node` at the index. -/
def push (target : Address) (nodes : List Node) (node : Node) (max : Nat) :
    List Node :=
  let ix := searchIdx target node nodes
  let nodes1 := if nodes.length < max then nodes ++ [node] else nodes
  if ix < nodes1.length then
    nodes1.take ix ++ node :: (nodes1.drop ix).dropLast
  else nodes1

/-- `sortedByDistanceTo` from `kademlia.go`: every consecutive pair is in
non-decreasing distance order to `target`. -/
def sortedByDistanceTo (target : Address) : List Node → Bool
  | [] => true
  | [_] => true
  | a :: b :: rest =>
    decide (0 ≤ ProxCmp target b.addr a.addr) && sortedByDistanceTo target (b :: rest)

/-- The scan loop of `FindClosest`, fuel-indexed.  One fuel unit is one
iteration of the Go `for index >= 0` loop; `none` models a result the Go
loop never produces: either exhausted fuel (non-termination) or a bucket
access with `index > MaxProx` (an out-of-range panic on the bucket
array).  Each iteration pushes the whole bucket at `index`, breaks when
`n >= min && (step < 0 || max == 0)`, turns around at `index == MaxProx`
(resetting `index` to `po` before the step), and otherwise advances by
`step`. -/
def fcLoop (k : Kademlia) (target : Address) (min limit : Nat)
    (maxIsZero : Bool) (po : Nat) :
    Nat → Int → Int → List Node → Nat → Option (List Node)
  | 0, _, _, _, _ => none
  | fuel + 1, index, step, nodes, n =>
    if index < 0 then some nodes
    else if (k.params.maxProx : Int) < index then none
    else
      let bucket := k.buckets.getD index.toNat []
      let nodes1 := bucket.foldl (fun acc p => push target acc p limit) nodes
      let n1 := n + bucket.length
      if min ≤ n1 ∧ (step < 0 ∨ maxIsZero) then some nodes1
      else if index = (k.params.maxProx : Int) then
        fcLoop k target min limit maxIsZero po fuel ((po : Int) - 1) (-1) nodes1 n1
      else
        fcLoop k target min limit maxIsZero po fuel (index + step) step nodes1 n1

/-- `FindClosest(target, max)` from `kademlia.go`: seed the scan at the
target's bin with `step = 1`; when `max == 0` the minimum result size is
1 and the cap is `maxPeers`.  The fuel `2 * MaxProx + 4` exceeds the
largest possible number of loop iterations, so `none` is never returned
(proved below). -/
def FindClosest (k : Kademlia) (target : Address) (max : Nat) :
    Option (List Node) :=
  let po := proximityBin k target
  let minv := if max = 0 then 1 else max
  let limit := if max = 0 then maxPeers else max
  fcLoop k target minv limit (max == 0) po (2 * k.params.maxProx + 4)
    (po : Int) 1 [] 0

/-- The states reachable from a fresh table by any sequence of `On`
(Join) and `Off` (Leave) operations.  `Off` only yields a successor when
it does not crash (the registry holds a record for the address). -/
inductive Reachable (addr : Address) (params : KadParams) : Kademlia → Prop
  | init : Reachable addr params (New addr params)
  | stepOn (k : Kademlia) (node : Node)
      (cb : Option (NodeRecord → Node → Option String)) (now : Int) :
      Reachable addr params k → Reachable addr params (On k node cb now).table
  | stepOff (k k1 : Kademlia) (node : Node) :
      Reachable addr params k → Off k node = some k1 →
      Reachable addr params k1

/-- Sum of the bucket lengths from index `j` on (the occupancy of the
proximity core when `j = proxLimit`), in a directly recursive form used
by the proofs. -/
def sumFrom : List (List Node) → Nat → Nat
  | [], _ => 0
  | b :: bs, 0 => b.length + sumFrom bs 0
  | _ :: bs, j + 1 => sumFrom bs j

/-- The structural invariant of the table maintained by `On`/`Off`:
the bucket array has `MaxProx + 1` rows, `proxLimit` stays in range,
`proxSize` counts exactly the peers at proximity orders
`[proxLimit, MaxProx]`, no bucket strictly below `proxLimit` is empty,
the core holds at least `ProxBinSize` peers whenever `proxLimit > 0`,
and no bucket exceeds `BucketSize`. -/
def Inv (k : Kademlia) : Prop :=
  k.buckets.length = k.params.maxProx + 1 ∧
  k.proxLimit ≤ k.params.maxProx ∧
  k.proxSize = (sumFrom k.buckets k.proxLimit : Int) ∧
  (∀ i, i < k.proxLimit → k.buckets.getD i [] ≠ []) ∧
  (0 < k.proxLimit → (k.params.proxBinSize : Int) ≤ k.proxSize) ∧
  (∀ i, (k.buckets.getD i []).length ≤ k.params.bucketSize)

/-- Sortedness by non-decreasing true XOR distance to `target`, as a
`Prop` on all pairs. -/
def DistSorted (target : Address) (l : List Node) : Prop :=
  l.Pairwise (fun a b => a.addr ^^^ target ≤ b.addr ^^^ target)

/-- One bucket scan of the reference two-phase description of the
`FindClosest` walk: push the whole bucket at bin `i` and count its
members. -/
def pushBucket (k : Kademlia) (target : Address) (limit : Nat)
    (st : List Node × Nat) (i : Nat) : List Node × Nat :=
  let bucket := k.buckets.getD i []
  (bucket.foldl (fun acc p => push target acc p limit) st.1,
   st.2 + bucket.length)

/-- Modelled from the spec: the first phase of the `ClosestPeers` walk
"first scanning upward (`po, po+1, …, MaxProx`)" collects every bucket
from the target's bin up to `MaxProx` with no early stop. -/
def upAll (k : Kademlia) (target : Address) (limit po : Nat) :
    List Node × Nat :=
  (List.range' po (k.params.maxProx + 1 - po)).foldl
    (pushBucket k target limit) ([], 0)

/-- Modelled from the spec: the second phase of the `ClosestPeers` walk
scans downward from `po - 1` toward 0, stopping as soon as at least
`minv` peers have been collected (checked after each bucket). -/
def downFrom (k : Kademlia) (target : Address) (limit minv : Nat) :
    Nat → List Node × Nat → List Node
  | 0, st => (pushBucket k target limit st 0).1
  | i + 1, st =>
    let st1 := pushBucket k target limit st (i + 1)
    if minv ≤ st1.2 then st1.1
    else downFrom k target limit minv i st1

/-- Modelled from the spec: what follows the upward phase — nothing when
the target bin is 0 (the turn leaves the walk below bin 0), otherwise
the downward scan from `po - 1`. -/
def afterUp (k : Kademlia) (target : Address) (limit minv po : Nat)
    (st : List Node × Nat) : List Node :=
  match po with
  | 0 => st.1
  | p + 1 => downFrom k target limit minv p st

/-- Modelled from the spec: the complete two-phase reference description
of `ClosestPeers` for `max > 0` — scan all bins `po..MaxProx` without
stopping, then scan `po-1` down toward 0, stopping once at least `max`
peers have been collected. -/
def twoPhase (k : Kademlia) (target : Address) (max : Nat) : List Node :=
  let po := proximityBin k target
  let st := upAll k target max po
  afterUp k target max max po st

/-- A concrete peer used by the witnesses: address `a`, last active at
time 0. -/
def nd (a : Nat) : Node := { addr := a, url := "u", lastActive := 0 }

/-- A concrete insertion callback that rejects every peer. -/
def cbReject : NodeRecord → Node → Option String := fun _ _ => some "no"

/-- A fresh table at base address 0 with the default parameters. -/
def tbl0 : Kademlia := New 0 NewDefaultKadParams

/-- Concrete trace: join peers 1, 2, 3 (all at proximity bin 8). -/
def tbl1 : Kademlia := (On tbl0 (nd 1) none 0).table

def tbl2 : Kademlia := (On tbl1 (nd 2) none 0).table

def tbl3 : Kademlia := (On tbl2 (nd 3) none 0).table

/-- Join peer 4: bin 8 is now full (`BucketSize = 4`). -/
def tbl4 : Kademlia := (On tbl3 (nd 4) none 0).table

/-- Join a peer at bin 0 (address `2^255`): the contraction loop fires
and `proxLimit` rises to 1. -/
def tbl5 : Kademlia := (On tbl4 (nd (2 ^ 255)) none 0).table

/-- Replacement join: bin 8 is full and every member has been idle for
50000 > `MaxIdleInterval` = 42000, so peer 5 replaces the idlest member
in place. -/
def tbl4r : OnResult := On tbl4 (nd 5) none 50000

/-- Concrete trace for Leave-on-absent: join peer 7, then leave it; the
table is structurally empty again but the registry still knows the
address. -/
def tblH : Kademlia := (On tbl0 (nd 7) none 0).table

def tblI : Kademlia := (Off tblH (nd 7)).getD tbl0

/-- Concrete table for the `max == 0` scan: one peer at bin 3
(address `2^252 + 1`) and one at bin 5 (address `2^250`). -/
def tblP : Kademlia := (On tbl0 (nd (2 ^ 252 + 1)) none 0).table

def tblQ : Kademlia := (On tblP (nd (2 ^ 250)) none 0).table

/-! ## Helper lemmas about the idle-peer scan -/

/-- Once the scan has a candidate it never loses it. -/
theorem scanLoop_some_isSome (now : Int) :
    ∀ (l : List Node) (idle : Int) (i : Nat) (pd : Nat × Node),
      ((scanLoop now idle i (some pd) l).2).isSome := by
  intro l
  induction l with
  | nil => intro idle i pd; simp [scanLoop]
  | cons p rest ih =>
    intro idle i pd
    simp only [scanLoop]
    split
    · exact ih _ _ _
    · exact ih _ _ _

/-- The scan result is `none` exactly when no element's idle duration
strictly exceeds the running threshold. -/
theorem scanLoop_none_iff (now : Int) :
    ∀ (l : List Node) (idle : Int) (i : Nat),
      (scanLoop now idle i none l).2 = none ↔
        ∀ p ∈ l, now - p.lastActive ≤ idle := by
  intro l
  induction l with
  | nil => intro idle i; simp [scanLoop]
  | cons p rest ih =>
    intro idle i
    simp only [scanLoop]
    split
    · rename_i hlt
      constructor
      · intro h
        have := scanLoop_some_isSome now rest (now - p.lastActive) (i + 1) (i, p)
        rw [h] at this
        simp at this
      · intro h
        exfalso
        have := h p (by simp)
        omega
    · rename_i hge
      rw [ih]
      constructor
      · intro h q hq
        rcases List.mem_cons.mp hq with hq | hq
        · subst hq
          omega
        · exact h q hq
      · intro h q hq
        exact h q (List.mem_cons_of_mem _ hq)

/-- The final idle value bounds the running one. -/
theorem scanLoop_idle_le (now : Int) :
    ∀ (l : List Node) (idle : Int) (i : Nat) (best : Option (Nat × Node)),
      idle ≤ (scanLoop now idle i best l).1 := by
  intro l
  induction l with
  | nil => intro idle i best; simp [scanLoop]
  | cons p rest ih =>
    intro idle i best
    simp only [scanLoop]
    split
    · rename_i hlt
      have := ih (now - p.lastActive) (i + 1) (some (i, p))
      omega
    · exact ih idle (i + 1) best

/-- Every scanned element's idle duration is bounded by the final
running maximum. -/
theorem scanLoop_all_le (now : Int) :
    ∀ (l : List Node) (idle : Int) (i : Nat) (best : Option (Nat × Node)),
      ∀ p ∈ l, now - p.lastActive ≤ (scanLoop now idle i best l).1 := by
  intro l
  induction l with
  | nil => intro idle i best p hp; simp at hp
  | cons q rest ih =>
    intro idle i best p hp
    simp only [scanLoop]
    rcases List.mem_cons.mp hp with hp | hp
    · subst hp
      split
      · rename_i hlt
        exact scanLoop_idle_le now rest _ _ _
      · rename_i hge
        have := scanLoop_idle_le now rest idle (i + 1) best
        omega
    · split
      · exact ih _ _ _ p hp
      · exact ih _ _ _ p hp

/-- When the final candidate is `some (pos, d)`, the final idle value is
exactly `now - d.lastActive`, provided the incoming candidate satisfies
the same relation with the incoming idle value. -/
theorem scanLoop_idle_eq (now : Int) :
    ∀ (l : List Node) (idle : Int) (i : Nat) (best : Option (Nat × Node)),
      (∀ pd, best = some pd → idle = now - pd.2.lastActive) →
      ∀ pos d, (scanLoop now idle i best l).2 = some (pos, d) →
        (scanLoop now idle i best l).1 = now - d.lastActive := by
  intro l
  induction l with
  | nil =>
    intro idle i best hbest pos d h
    simp only [scanLoop] at *
    exact hbest (pos, d) h
  | cons p rest ih =>
    intro idle i best hbest pos d h
    simp only [scanLoop] at *
    split at h <;> split
    · exact ih _ _ _ (by intro pd hpd; cases hpd; rfl) pos d h
    · rename_i h1 h2; exact absurd h1 h2
    · rename_i h1 h2; exact absurd h2 h1
    · exact ih _ _ _ hbest pos d h

/-- When the incoming candidate strictly exceeds a base threshold (or is
absent and the idle value is at least the base), the final candidate, if
any, strictly exceeds the base. -/
theorem scanLoop_strict (now base : Int) :
    ∀ (l : List Node) (idle : Int) (i : Nat) (best : Option (Nat × Node)),
      base ≤ idle →
      (∀ pd, best = some pd → base < idle) →
      ∀ pos d, (scanLoop now idle i best l).2 = some (pos, d) →
        base < (scanLoop now idle i best l).1 := by
  intro l
  induction l with
  | nil =>
    intro idle i best hle hstrict pos d h
    simp only [scanLoop] at *
    exact hstrict (pos, d) h
  | cons p rest ih =>
    intro idle i best hle hstrict pos d h
    simp only [scanLoop] at *
    split at h <;> split
    · rename_i h1 _
      exact ih _ _ _ (by omega) (by intro pd _; omega) pos d h
    · rename_i h1 h2; exact absurd h1 h2
    · rename_i h1 h2; exact absurd h2 h1
    · exact ih _ _ _ hle hstrict pos d h

/-- The found candidate's position addresses the found peer in the
scanned list (positions are counted from the running offset `i`). -/
theorem scanLoop_get (now : Int) :
    ∀ (l : List Node) (idle : Int) (i : Nat) (best : Option (Nat × Node)),
      ∀ pos d, (scanLoop now idle i best l).2 = some (pos, d) →
        best = some (pos, d) ∨ (i ≤ pos ∧ l.get? (pos - i) = some d) := by
  intro l
  induction l with
  | nil =>
    intro idle i best pos d h
    simp only [scanLoop] at h
    exact Or.inl h
  | cons p rest ih =>
    intro idle i best pos d h
    simp only [scanLoop] at h
    split at h
    · rcases ih _ _ _ pos d h with hc | hc
      · cases hc
        right
        constructor
        · exact Nat.le_refl _
        · simp
      · right
        refine ⟨by omega, ?_⟩
        rcases hc with ⟨hle, hget⟩
        have : pos - i = (pos - (i + 1)) + 1 := by omega
        rw [this]
        simpa using hget
    · rcases ih _ _ _ pos d h with hc | hc
      · exact Or.inl hc
      · right
        rcases hc with ⟨hle, hget⟩
        refine ⟨by omega, ?_⟩
        have : pos - i = (pos - (i + 1)) + 1 := by omega
        rw [this]
        simpa using hget

/-! ## Helper lemmas about buckets, sums and setProxLimit -/

theorem setProxLimit_buckets (k : Kademlia) (r : Nat) (isOn : Bool) :
    (setProxLimit k r isOn).buckets = k.buckets := by
  unfold setProxLimit
  split
  · rfl
  · split <;> rfl

theorem setProxLimit_count (k : Kademlia) (r : Nat) (isOn : Bool) :
    (setProxLimit k r isOn).count = k.count := by
  unfold setProxLimit
  split
  · rfl
  · split <;> rfl

theorem setProxLimit_db (k : Kademlia) (r : Nat) (isOn : Bool) :
    (setProxLimit k r isOn).db = k.db := by
  unfold setProxLimit
  split
  · rfl
  · split <;> rfl

theorem setProxLimit_params (k : Kademlia) (r : Nat) (isOn : Bool) :
    (setProxLimit k r isOn).params = k.params := by
  unfold setProxLimit
  split
  · rfl
  · split <;> rfl

theorem setProxLimit_addr (k : Kademlia) (r : Nat) (isOn : Bool) :
    (setProxLimit k r isOn).addr = k.addr := by
  unfold setProxLimit
  split
  · rfl
  · split <;> rfl

theorem proximityBin_le (k : Kademlia) (a : Address) :
    proximityBin k a ≤ k.params.maxProx :=
  Nat.min_le_right _ _

theorem getD_set_self (bs : List (List Node)) (r : Nat) (b : List Node)
    (h : r < bs.length) : (bs.set r b).getD r [] = b := by
  unfold List.getD
  rw [List.get?_set_eq_of_lt _ h]
  rfl

theorem getD_set_ne (bs : List (List Node)) (r i : Nat) (b : List Node)
    (h : i ≠ r) : (bs.set r b).getD i [] = bs.getD i [] := by
  unfold List.getD
  rw [List.get?_set_ne b bs (Ne.symm h)]

theorem sum_map_length_set (bs : List (List Node)) :
    ∀ (r : Nat) (b : List Node), r < bs.length →
      (((bs.set r b).map List.length).sum : Int) =
        ((bs.map List.length).sum : Int) + b.length -
          (bs.getD r []).length := by
  induction bs with
  | nil => intro r b h; simp at h
  | cons hd tl ih =>
    intro r b h
    cases r with
    | zero =>
      simp [List.getD]
      push_cast
      ring
    | succ r =>
      have hr : r < tl.length := by simpa using h
      have := ih r b hr
      simp only [List.set, List.map, List.sum_cons, List.getD_cons_succ]
      push_cast at *
      omega

theorem removeFirst_length (a : Address) :
    ∀ (l l1 : List Node), removeFirst a l = some l1 →
      l.length = l1.length + 1 := by
  intro l
  induction l with
  | nil => intro l1 h; simp [removeFirst] at h
  | cons p rest ih =>
    intro l1 h
    unfold removeFirst at h
    split at h
    · cases h
      simp
    · rcases hm : removeFirst a rest with _ | l2
      · rw [hm] at h; cases h
      · rw [hm] at h
        cases h
        have := ih l2 hm
        simp [this]

/-- The value `On` computes for the callback result, abbreviated for the
reduction lemmas. -/
def cbValue (k : Kademlia) (node : Node)
    (cb : Option (NodeRecord → Node → Option String)) : Option String :=
  match cb with
  | none => none
  | some f =>
    f (findOrCreate k.db (proximityBin k node.addr) node.addr node.url).1 node

theorem On_eq_cberr (k : Kademlia) (node : Node)
    (cb : Option (NodeRecord → Node → Option String)) (now : Int) (e : String)
    (hcb : cbValue k node cb = some e) :
    On k node cb now =
      { table := { k with
          db := (findOrCreate k.db (proximityBin k node.addr) node.addr
            node.url).2 }
        err := some e
        dropped := none } := by
  unfold cbValue at hcb
  simp only [On]
  rw [hcb]

theorem On_eq_append (k : Kademlia) (node : Node)
    (cb : Option (NodeRecord → Node → Option String)) (now : Int)
    (hcb : cbValue k node cb = none)
    (hlt : (k.buckets.getD (proximityBin k node.addr) []).length <
      k.params.bucketSize) :
    On k node cb now =
      { table :=
          { setProxLimit
              { k with
                db := (findOrCreate k.db (proximityBin k node.addr)
                  node.addr node.url).2
                buckets := k.buckets.set (proximityBin k node.addr)
                  (k.buckets.getD (proximityBin k node.addr) [] ++ [node]) }
              (proximityBin k node.addr) true with
            db := dbSetNode (findOrCreate k.db (proximityBin k node.addr)
              node.addr node.url).2 node.addr (some node)
            count := k.count + 1 }
        err := none
        dropped := none } := by
  unfold cbValue at hcb
  simp only [On]
  rw [hcb]
  simp only [if_pos hlt]
  rw [setProxLimit_db, setProxLimit_count]

theorem On_eq_replace (k : Kademlia) (node : Node)
    (cb : Option (NodeRecord → Node → Option String)) (now : Int)
    (pos : Nat) (d : Node)
    (hcb : cbValue k node cb = none)
    (hfull : ¬ (k.buckets.getD (proximityBin k node.addr) []).length <
      k.params.bucketSize)
    (hsc : scanIdlest now k.params.maxIdleInterval
      (k.buckets.getD (proximityBin k node.addr) []) = some (pos, d)) :
    On k node cb now =
      { table := { k with
          buckets := k.buckets.set (proximityBin k node.addr)
            ((k.buckets.getD (proximityBin k node.addr) []).set pos node)
          db := dbSetNode (findOrCreate k.db (proximityBin k node.addr)
            node.addr node.url).2 node.addr (some node)
          count := k.count + 1 }
        err := none
        dropped := some d } := by
  unfold cbValue at hcb
  simp only [On]
  rw [hcb]
  simp only [if_neg hfull, hsc]

theorem On_eq_bucketfull (k : Kademlia) (node : Node)
    (cb : Option (NodeRecord → Node → Option String)) (now : Int)
    (hcb : cbValue k node cb = none)
    (hfull : ¬ (k.buckets.getD (proximityBin k node.addr) []).length <
      k.params.bucketSize)
    (hsc : scanIdlest now k.params.maxIdleInterval
      (k.buckets.getD (proximityBin k node.addr) []) = none) :
    On k node cb now =
      { table := { k with
          db := (findOrCreate k.db (proximityBin k node.addr) node.addr
            node.url).2 }
        err := some "bucket full"
        dropped := none } := by
  unfold cbValue at hcb
  simp only [On]
  rw [hcb]
  simp only [if_neg hfull, hsc]

theorem Off_eq_absent (k : Kademlia) (node : Node) (r : NodeRecord)
    (habs : removeFirst node.addr
      (k.buckets.getD (proximityBin k node.addr) []) = none)
    (hdb : dbFind k.db node.addr = some r) :
    Off k node =
      some { k with
        db := dbSetNode k.db node.addr none
        count := k.count - 1 } := by
  simp only [Off]
  rw [habs]
  simp only [hdb]

theorem Off_eq_found (k : Kademlia) (node : Node) (bucket1 : List Node)
    (r : NodeRecord)
    (hrm : removeFirst node.addr
      (k.buckets.getD (proximityBin k node.addr) []) = some bucket1)
    (hdb : dbFind k.db node.addr = some r) :
    Off k node =
      some { setProxLimit
          { k with
            buckets := k.buckets.set (proximityBin k node.addr) bucket1 }
          (proximityBin k node.addr) false with
        db := dbSetNode k.db node.addr none
        count := k.count - 1 } := by
  simp only [Off]
  rw [hrm]
  rw [setProxLimit_db]
  simp only [hdb]
  rw [setProxLimit_count]

theorem Off_eq_none (k : Kademlia) (node : Node)
    (hdb : dbFind k.db node.addr = none) : Off k node = none := by
  simp only [Off]
  rcases hrm : removeFirst node.addr
      (k.buckets.getD (proximityBin k node.addr) []) with _ | b1 <;>
    simp only [hrm]
  · simp only [hdb]
  · rw [setProxLimit_db]
    simp only [hdb]

/-! ## Claim C5: bucket-full behaviour of Join (On) -/

/-- C5.  When the target bucket already has `BucketSize` members, `On`
returns a "bucket full" error iff no member's idle duration
(`now - LastActive`) strictly exceeds `MaxIdleInterval`; in that case no
member is dropped and the buckets are unchanged.  Otherwise a member
with the largest idle duration (strictly above `MaxIdleInterval`) is
dropped and replaced in place, with `proxLimit` and `proxSize`
unchanged. -/
theorem C5_on_bucket_full (k : Kademlia) (node : Node) (now : Int)
    (hfull : ¬ (k.buckets.getD (proximityBin k node.addr) []).length <
      k.params.bucketSize) :
    (((On k node none now).err).isSome ↔
      ∀ p ∈ k.buckets.getD (proximityBin k node.addr) [],
        now - p.lastActive ≤ k.params.maxIdleInterval) ∧
    (((On k node none now).err).isSome →
      (On k node none now).dropped = none ∧
      (On k node none now).table.buckets = k.buckets) ∧
    ((On k node none now).err = none →
      ∃ pos d, (On k node none now).dropped = some d ∧
        (k.buckets.getD (proximityBin k node.addr) []).get? pos = some d ∧
        k.params.maxIdleInterval < now - d.lastActive ∧
        (∀ p ∈ k.buckets.getD (proximityBin k node.addr) [],
          now - p.lastActive ≤ now - d.lastActive) ∧
        (On k node none now).table.buckets =
          k.buckets.set (proximityBin k node.addr)
            ((k.buckets.getD (proximityBin k node.addr) []).set pos node) ∧
        (On k node none now).table.proxLimit = k.proxLimit ∧
        (On k node none now).table.proxSize = k.proxSize) := by
  rcases hsc : scanIdlest now k.params.maxIdleInterval
      (k.buckets.getD (proximityBin k node.addr) []) with _ | pd
  · have hred : On k node none now =
        { table := { k with
            db := (findOrCreate k.db (proximityBin k node.addr) node.addr
              node.url).2 }
          err := some "bucket full"
          dropped := none } := by
      simp only [On, hsc, if_neg hfull]
    have hall : ∀ p ∈ k.buckets.getD (proximityBin k node.addr) [],
        now - p.lastActive ≤ k.params.maxIdleInterval :=
      (scanLoop_none_iff now _ _ _).mp hsc
    refine ⟨?_, ?_, ?_⟩
    · rw [hred]
      simpa using hall
    · intro _
      rw [hred]
      exact ⟨rfl, rfl⟩
    · intro herr
      rw [hred] at herr
      simp at herr
  · obtain ⟨pos, d⟩ := pd
    have hred : On k node none now =
        { table := { k with
            buckets := k.buckets.set (proximityBin k node.addr)
              ((k.buckets.getD (proximityBin k node.addr) []).set pos node)
            db := dbSetNode (findOrCreate k.db (proximityBin k node.addr)
              node.addr node.url).2 node.addr (some node)
            count := k.count + 1 }
          err := none
          dropped := some d } := by
      simp only [On, hsc, if_neg hfull]
    have hget := scanLoop_get now _ _ _ _ pos d hsc
    have hidle := scanLoop_idle_eq now _ _ _ _ (by intro pd h; cases h) pos d hsc
    have hstrict := scanLoop_strict now k.params.maxIdleInterval _ _ _ _
      (Int.le_refl _) (by intro pd h; cases h) pos d hsc
    have hall := scanLoop_all_le now
      (k.buckets.getD (proximityBin k node.addr) []) k.params.maxIdleInterval 0
      none
    refine ⟨?_, ?_, ?_⟩
    · rw [hred]
      constructor
      · intro h
        simp at h
      · intro h
        exfalso
        rcases hget with hc | ⟨_, hc⟩
        · cases hc
        · have hd : d ∈ k.buckets.getD (proximityBin k node.addr) [] :=
            List.get?_mem (by simpa using hc)
          have := h d hd
          omega
    · intro h
      rw [hred] at h
      simp at h
    · intro _
      refine ⟨pos, d, ?_, ?_, ?_, ?_, ?_, ?_, ?_⟩
      · rw [hred]
      · rcases hget with hc | ⟨_, hc⟩
        · cases hc
        · simpa using hc
      · omega
      · intro p hp
        have := hall p hp
        omega
      · rw [hred]
      · rw [hred]
      · rw [hred]

/-! ## Claim C9: callback-rejection atomicity of Join (On) -/

/-- C9.  If the insertion callback rejects the peer, `On` returns an
error, the buckets, `count`, `proxLimit` and `proxSize` are exactly as
before, no peer is dropped, and the record fetched or created for the
peer's address before the callback remains in the registry. -/
theorem C9_on_callback_rejected (k : Kademlia) (node : Node) (now : Int)
    (f : NodeRecord → Node → Option String) (e : String)
    (hf : f (findOrCreate k.db (proximityBin k node.addr) node.addr
      node.url).1 node = some e) :
    ((On k node (some f) now).err).isSome ∧
    (On k node (some f) now).table.buckets = k.buckets ∧
    (On k node (some f) now).table.count = k.count ∧
    (On k node (some f) now).table.proxLimit = k.proxLimit ∧
    (On k node (some f) now).table.proxSize = k.proxSize ∧
    (On k node (some f) now).dropped = none ∧
    (dbFind (On k node (some f) now).table.db node.addr).isSome := by
  have hred : On k node (some f) now =
      { table := { k with
          db := (findOrCreate k.db (proximityBin k node.addr) node.addr
            node.url).2 }
        err := some e
        dropped := none } := by
    simp only [On, hf]
  rw [hred]
  refine ⟨rfl, rfl, rfl, rfl, rfl, rfl, ?_⟩
  show (dbFind (findOrCreate k.db (proximityBin k node.addr) node.addr
    node.url).2 node.addr).isSome
  unfold findOrCreate
  rcases hdb : dbFind k.db node.addr with _ | r
  · simp only [hdb]
    unfold dbFind at *
    rw [List.find?_append, hdb]
    simp
  · simp only [hdb]
    rfl

/-- Witness for C5: a table whose bin 8 holds four peers (the default
`BucketSize`), joined by peer 5 at time 50000 when every member has been
idle for longer than `MaxIdleInterval`. -/
theorem C5_on_bucket_full_witness :
    (¬ (tbl4.buckets.getD (proximityBin tbl4 (nd 5).addr) []).length <
      tbl4.params.bucketSize) ∧
    ((((On tbl4 (nd 5) none 50000).err).isSome ↔
      ∀ p ∈ tbl4.buckets.getD (proximityBin tbl4 (nd 5).addr) [],
        (50000 : Int) - p.lastActive ≤ tbl4.params.maxIdleInterval) ∧
    (((On tbl4 (nd 5) none 50000).err).isSome →
      (On tbl4 (nd 5) none 50000).dropped = none ∧
      (On tbl4 (nd 5) none 50000).table.buckets = tbl4.buckets) ∧
    ((On tbl4 (nd 5) none 50000).err = none →
      ∃ pos d, (On tbl4 (nd 5) none 50000).dropped = some d ∧
        (tbl4.buckets.getD (proximityBin tbl4 (nd 5).addr) []).get? pos
          = some d ∧
        tbl4.params.maxIdleInterval < 50000 - d.lastActive ∧
        (∀ p ∈ tbl4.buckets.getD (proximityBin tbl4 (nd 5).addr) [],
          (50000 : Int) - p.lastActive ≤ 50000 - d.lastActive) ∧
        (On tbl4 (nd 5) none 50000).table.buckets =
          tbl4.buckets.set (proximityBin tbl4 (nd 5).addr)
            ((tbl4.buckets.getD (proximityBin tbl4 (nd 5).addr) []).set pos
              (nd 5)) ∧
        (On tbl4 (nd 5) none 50000).table.proxLimit = tbl4.proxLimit ∧
        (On tbl4 (nd 5) none 50000).table.proxSize = tbl4.proxSize)) :=
  ⟨by decide, C5_on_bucket_full tbl4 (nd 5) 50000 (by decide)⟩

/-- Witness for C9: joining peer 1 into a fresh table with a callback
that rejects every peer. -/
theorem C9_on_callback_rejected_witness :
    (cbReject (findOrCreate tbl0.db (proximityBin tbl0 (nd 1).addr)
      (nd 1).addr (nd 1).url).1 (nd 1) = some "no") ∧
    (((On tbl0 (nd 1) (some cbReject) 0).err).isSome ∧
    (On tbl0 (nd 1) (some cbReject) 0).table.buckets = tbl0.buckets ∧
    (On tbl0 (nd 1) (some cbReject) 0).table.count = tbl0.count ∧
    (On tbl0 (nd 1) (some cbReject) 0).table.proxLimit = tbl0.proxLimit ∧
    (On tbl0 (nd 1) (some cbReject) 0).table.proxSize = tbl0.proxSize ∧
    (On tbl0 (nd 1) (some cbReject) 0).dropped = none ∧
    (dbFind (On tbl0 (nd 1) (some cbReject) 0).table.db (nd 1).addr).isSome) :=
  ⟨rfl, C9_on_callback_rejected tbl0 (nd 1) 0 cbReject "no" rfl⟩

/-! ## Helper lemmas about sumFrom and the core-boundary loops -/

theorem sumFrom_ge (bs : List (List Node)) :
    ∀ j, bs.length ≤ j → sumFrom bs j = 0 := by
  induction bs with
  | nil => intro j _; rfl
  | cons b bs ih =>
    intro j hj
    cases j with
    | zero => simp at hj
    | succ j =>
      show sumFrom bs j = 0
      exact ih j (by simpa using hj)

theorem sumFrom_step (bs : List (List Node)) :
    ∀ j, j < bs.length →
      sumFrom bs j = (bs.getD j []).length + sumFrom bs (j + 1) := by
  induction bs with
  | nil => intro j hj; simp at hj
  | cons b bs ih =>
    intro j hj
    cases j with
    | zero => rfl
    | succ j =>
      show sumFrom bs j = ((b :: bs).getD (j + 1) []).length +
        sumFrom bs (j + 1)
      rw [List.getD_cons_succ]
      exact ih j (by simpa using hj)

theorem sumFrom_set_le (bs : List (List Node)) :
    ∀ (r j : Nat) (b : List Node), j ≤ r → r < bs.length →
      ((sumFrom (bs.set r b) j : Int)) =
        (sumFrom bs j : Int) + b.length - (bs.getD r []).length := by
  induction bs with
  | nil => intro r j b _ h; simp at h
  | cons hd tl ih =>
    intro r j b hjr hr
    cases r with
    | zero =>
      have hj : j = 0 := Nat.le_zero.mp hjr
      subst hj
      show ((b.length + sumFrom tl 0 : Nat) : Int) =
        ((hd.length + sumFrom tl 0 : Nat) : Int) + b.length - hd.length
      push_cast
      ring
    | succ r =>
      have hr1 : r < tl.length := by simpa using hr
      cases j with
      | zero =>
        show ((hd.length + sumFrom (tl.set r b) 0 : Nat) : Int) =
          ((hd.length + sumFrom tl 0 : Nat) : Int) + b.length -
            ((hd :: tl).getD (r + 1) []).length
        rw [List.getD_cons_succ]
        have := ih r 0 b (Nat.zero_le _) hr1
        push_cast at *
        omega
      | succ j =>
        show ((sumFrom (tl.set r b) j : Nat) : Int) =
          ((sumFrom tl j : Nat) : Int) + b.length -
            ((hd :: tl).getD (r + 1) []).length
        rw [List.getD_cons_succ]
        exact ih r j b (by omega) hr1

theorem sumFrom_set_gt (bs : List (List Node)) :
    ∀ (r j : Nat) (b : List Node), r < j →
      sumFrom (bs.set r b) j = sumFrom bs j := by
  induction bs with
  | nil => intro r j b _; rfl
  | cons hd tl ih =>
    intro r j b hrj
    cases r with
    | zero =>
      cases j with
      | zero => omega
      | succ j => rfl
    | succ r =>
      cases j with
      | zero => omega
      | succ j => exact ih r j b (by omega)

theorem sumFrom_drop (bs : List (List Node)) :
    ∀ j, sumFrom bs j = ((bs.drop j).map List.length).sum := by
  induction bs with
  | nil => intro j; simp [sumFrom]
  | cons b bs ih =>
    intro j
    cases j with
    | zero =>
      show b.length + sumFrom bs 0 = ((b :: bs).map List.length).sum
      rw [ih 0]
      simp
    | succ j =>
      show sumFrom bs j = (((b :: bs).drop (j + 1)).map List.length).sum
      rw [ih j]
      rfl

theorem getD_replicate_nil :
    ∀ (m i : Nat), (List.replicate m ([] : List Node)).getD i [] = [] := by
  intro m
  induction m with
  | zero => intro i; rfl
  | succ m ih =>
    intro i
    cases i with
    | zero => rfl
    | succ i =>
      show (List.replicate m ([] : List Node)).getD i [] = []
      exact ih i

theorem sumFrom_replicate_nil :
    ∀ (m j : Nat), sumFrom (List.replicate m ([] : List Node)) j = 0 := by
  intro m
  induction m with
  | zero => intro j; rfl
  | succ m ih =>
    intro j
    cases j with
    | zero =>
      show ([] : List Node).length + sumFrom (List.replicate m []) 0 = 0
      rw [ih 0]
      rfl
    | succ j => exact ih j

theorem contractGas_spec (bs : List (List Node)) (pbs : Int)
    (hpbs : 1 ≤ pbs) :
    ∀ (gas : Nat) (ps : Int) (pl : Nat),
      gas + pl = bs.length → pl + 1 ≤ bs.length →
      ps = (sumFrom bs pl : Int) →
      (∀ i, i < pl → bs.getD i [] ≠ []) →
      (0 < pl → pbs ≤ ps) →
      pl ≤ (contractGas bs pbs gas ps pl).2 ∧
      (contractGas bs pbs gas ps pl).2 + 1 ≤ bs.length ∧
      (contractGas bs pbs gas ps pl).1 =
        (sumFrom bs (contractGas bs pbs gas ps pl).2 : Int) ∧
      (∀ i, i < (contractGas bs pbs gas ps pl).2 → bs.getD i [] ≠ []) ∧
      (0 < (contractGas bs pbs gas ps pl).2 →
        pbs ≤ (contractGas bs pbs gas ps pl).1) := by
  intro gas
  induction gas with
  | zero =>
    intro ps pl h1 h2 _ _ _
    omega
  | succ gas ih =>
    intro ps pl h1 h2 hsum hgap hE
    by_cases hc : ps ≥ pbs + ((bs.getD pl []).length : Int) ∧
        0 < (bs.getD pl []).length
    · have hred : contractGas bs pbs (gas + 1) ps pl =
          contractGas bs pbs gas (ps - (bs.getD pl []).length) (pl + 1) := by
        simp only [contractGas]
        rw [if_pos hc]
      rw [hred]
      have hpl : pl < bs.length := by omega
      have hstep := sumFrom_step bs pl hpl
      have hpl2 : pl + 1 + 1 ≤ bs.length := by
        by_contra hno
        have hple : pl + 1 = bs.length := by omega
        have hz : sumFrom bs (pl + 1) = 0 := sumFrom_ge bs (pl + 1) (by omega)
        rw [hstep, hz] at hsum
        push_cast at hsum
        omega
      have := ih (ps - (bs.getD pl []).length) (pl + 1) (by omega) hpl2
        (by rw [hstep] at hsum; push_cast at hsum; push_cast; omega)
        (by
          intro i hi
          rcases Nat.lt_succ_iff_lt_or_eq.mp hi with hi | hi
          · exact hgap i hi
          · subst hi
            exact List.length_pos.mp hc.2)
        (by intro _; omega)
      exact ⟨by omega, this.2.1, this.2.2.1, this.2.2.2.1, this.2.2.2.2⟩
    · have hred : contractGas bs pbs (gas + 1) ps pl = (ps, pl) := by
        simp only [contractGas]
        rw [if_neg hc]
      rw [hred]
      exact ⟨Nat.le_refl _, h2, hsum, hgap, hE⟩

theorem expand_spec (bs : List (List Node)) (pbs : Int) (r : Nat) :
    ∀ (pl : Nat) (ps : Int),
      ps = (sumFrom bs pl : Int) →
      pl + 1 ≤ bs.length →
      (∀ i, i < pl → i ≠ r → bs.getD i [] ≠ []) →
      (expand bs pbs r ps pl).2 ≤ pl ∧
      (expand bs pbs r ps pl).1 =
        (sumFrom bs (expand bs pbs r ps pl).2 : Int) ∧
      ((expand bs pbs r ps pl).2 = 0 ∨
        (pbs ≤ (expand bs pbs r ps pl).1 ∧
          ¬ r < (expand bs pbs r ps pl).2)) ∧
      (∀ i, i < (expand bs pbs r ps pl).2 → i ≠ r →
        bs.getD i [] ≠ []) := by
  intro pl
  induction pl with
  | zero =>
    intro ps hsum _ hgap
    exact ⟨Nat.le_refl _, hsum, Or.inl rfl, hgap⟩
  | succ pl ih =>
    intro ps hsum hlen hgap
    by_cases hc : ps < pbs ∨ r < pl + 1
    · have hred : expand bs pbs r ps (pl + 1) =
          expand bs pbs r (ps + ((bs.getD pl []).length : Int)) pl := by
        simp only [expand]
        rw [if_pos hc]
      rw [hred]
      have hpl : pl < bs.length := by omega
      have hstep := sumFrom_step bs pl hpl
      have := ih (ps + (bs.getD pl []).length)
        (by rw [hstep]; push_cast; omega) (by omega)
        (by intro i hi hir; exact hgap i (by omega) hir)
      exact ⟨Nat.le_trans this.1 (Nat.le_succ pl), this.2.1, this.2.2.1,
        this.2.2.2⟩
    · have hred : expand bs pbs r ps (pl + 1) = (ps, pl + 1) := by
        simp only [expand]
        rw [if_neg hc]
      rw [hred]
      push_neg at hc
      exact ⟨Nat.le_refl _, hsum, Or.inr ⟨hc.1, by omega⟩, hgap⟩

/-! ## Invariant preservation -/

/-- `Inv` ignores `db` and `count`, so overriding them is harmless. -/
theorem Inv_db_count (k : Kademlia) (D : List NodeRecord) (C : Int) :
    Inv { k with db := D, count := C } ↔ Inv k := Iff.rfl

/-- Replacing a bucket by one of equal length preserves the invariant
(no boundary adjustment happens in the replacement branch of `On`). -/
theorem Inv_set_same_length (k : Kademlia) (r : Nat) (b : List Node)
    (D : List NodeRecord) (C : Int) (hInv : Inv k)
    (hr : r < k.buckets.length)
    (hb : b.length = (k.buckets.getD r []).length) :
    Inv { k with buckets := k.buckets.set r b, db := D, count := C } := by
  obtain ⟨hlen, hpl, hsum, hgap, hE, hcap⟩ := hInv
  have hgetset : (k.buckets.set r b).getD r [] = b := getD_set_self _ _ _ hr
  refine ⟨?_, hpl, ?_, ?_, hE, ?_⟩
  · show (k.buckets.set r b).length = k.params.maxProx + 1
    rw [List.length_set]
    exact hlen
  · show k.proxSize = (sumFrom (k.buckets.set r b) k.proxLimit : Int)
    by_cases hc : r < k.proxLimit
    · rw [sumFrom_set_gt k.buckets r k.proxLimit b hc]
      exact hsum
    · have hle : k.proxLimit ≤ r := by omega
      have := sumFrom_set_le k.buckets r k.proxLimit b hle hr
      rw [hsum]
      omega
  · intro i hi
    by_cases hir : i = r
    · subst hir
      rw [hgetset]
      intro hnil
      rw [hnil] at hb
      simp only [List.length_nil] at hb
      exact hgap i hi (List.length_eq_zero.mp hb.symm)
    · show (k.buckets.set r b).getD i [] ≠ []
      rw [getD_set_ne _ _ _ _ hir]
      exact hgap i hi
  · intro i
    by_cases hir : i = r
    · subst hir
      show ((k.buckets.set i b).getD i []).length ≤ k.params.bucketSize
      rw [hgetset, hb]
      exact hcap i
    · show ((k.buckets.set r b).getD i []).length ≤ k.params.bucketSize
      rw [getD_set_ne _ _ _ _ hir]
      exact hcap i

/-- `setProxLimit r true` after a one-peer append at bin `r` preserves
the invariant. -/
theorem Inv_setProxLimit_add (k : Kademlia) (r : Nat) (b : List Node)
    (D : List NodeRecord) (hInv : Inv k)
    (hpbs : 1 ≤ k.params.proxBinSize) (hr : r < k.buckets.length)
    (hb : b.length = (k.buckets.getD r []).length + 1)
    (hcap : b.length ≤ k.params.bucketSize) :
    Inv (setProxLimit { k with buckets := k.buckets.set r b, db := D }
      r true) := by
  obtain ⟨hlen, hpl, hsum, hgap, hE, hcapAll⟩ := hInv
  have hbne : b ≠ [] := by
    intro h
    rw [h] at hb
    simp at hb
  have hbpos : 0 < b.length := List.length_pos.mpr hbne
  have hgetset : (k.buckets.set r b).getD r [] = b := getD_set_self _ _ _ hr
  have hlen' : (k.buckets.set r b).length = k.params.maxProx + 1 := by
    rw [List.length_set]
    exact hlen
  have hcap' : ∀ i, ((k.buckets.set r b).getD i []).length ≤
      k.params.bucketSize := by
    intro i
    by_cases hir : i = r
    · subst hir
      rw [hgetset]
      exact hcap
    · rw [getD_set_ne _ _ _ _ hir]
      exact hcapAll i
  unfold setProxLimit
  dsimp only
  by_cases hc : r < k.proxLimit ∧ 0 < ((k.buckets.set r b).getD r []).length
  · rw [if_pos hc]
    refine ⟨hlen', hpl, ?_, ?_, hE, hcap'⟩
    · show k.proxSize = (sumFrom (k.buckets.set r b) k.proxLimit : Int)
      rw [sumFrom_set_gt k.buckets r k.proxLimit b hc.1]
      exact hsum
    · intro i hi
      by_cases hir : i = r
      · subst hir
        rw [hgetset]
        exact hbne
      · rw [getD_set_ne _ _ _ _ hir]
        exact hgap i hi
  · rw [if_neg hc]
    rw [if_pos rfl]
    have hge : k.proxLimit ≤ r := by
      by_contra hno
      rw [hgetset] at hc
      exact hc ⟨by omega, hbpos⟩
    have hset := sumFrom_set_le k.buckets r k.proxLimit b hge hr
    have hpbsZ : (1 : Int) ≤ (k.params.proxBinSize : Int) := by
      exact_mod_cast hpbs
    have hspec := contractGas_spec (k.buckets.set r b)
      (k.params.proxBinSize : Int) hpbsZ
      ((k.buckets.set r b).length - k.proxLimit) (k.proxSize + 1) k.proxLimit
      (by omega) (by omega)
      (by rw [hsum]; omega)
      (by
        intro i hi
        rw [getD_set_ne _ _ _ _ (by omega)]
        exact hgap i hi)
      (by intro h0; have := hE h0; omega)
    unfold contract
    unfold Inv
    dsimp only
    refine ⟨hlen', by omega, hspec.2.2.1, hspec.2.2.2.1, hspec.2.2.2.2,
      hcap'⟩

/-- `setProxLimit r false` after a one-peer removal at bin `r` preserves
the invariant. -/
theorem Inv_setProxLimit_remove (k : Kademlia) (r : Nat) (b : List Node)
    (hInv : Inv k) (hpbs : 1 ≤ k.params.proxBinSize)
    (hr : r < k.buckets.length)
    (hb : (k.buckets.getD r []).length = b.length + 1) :
    Inv (setProxLimit { k with buckets := k.buckets.set r b } r false) := by
  obtain ⟨hlen, hpl, hsum, hgap, hE, hcapAll⟩ := hInv
  have hgetset : (k.buckets.set r b).getD r [] = b := getD_set_self _ _ _ hr
  have hlen' : (k.buckets.set r b).length = k.params.maxProx + 1 := by
    rw [List.length_set]
    exact hlen
  have hcap' : ∀ i, ((k.buckets.set r b).getD i []).length ≤
      k.params.bucketSize := by
    intro i
    by_cases hir : i = r
    · subst hir
      rw [hgetset]
      have := hcapAll i
      omega
    · rw [getD_set_ne _ _ _ _ hir]
      exact hcapAll i
  unfold setProxLimit
  dsimp only
  by_cases hc : r < k.proxLimit ∧ 0 < ((k.buckets.set r b).getD r []).length
  · rw [if_pos hc]
    refine ⟨hlen', hpl, ?_, ?_, hE, hcap'⟩
    · show k.proxSize = (sumFrom (k.buckets.set r b) k.proxLimit : Int)
      rw [sumFrom_set_gt k.buckets r k.proxLimit b hc.1]
      exact hsum
    · intro i hi
      by_cases hir : i = r
      · subst hir
        rw [hgetset]
        rw [hgetset] at hc
        exact List.length_pos.mp hc.2
      · rw [getD_set_ne _ _ _ _ hir]
        exact hgap i hi
  · rw [if_neg hc]
    rw [if_neg (by simp)]
    have hpbsZ : (1 : Int) ≤ (k.params.proxBinSize : Int) := by
      exact_mod_cast hpbs
    have hps0 : (if r ≥ k.proxLimit then k.proxSize - 1 else k.proxSize) =
        (sumFrom (k.buckets.set r b) k.proxLimit : Int) := by
      by_cases hge : r ≥ k.proxLimit
      · rw [if_pos hge]
        have hset := sumFrom_set_le k.buckets r k.proxLimit b hge hr
        rw [hsum]
        omega
      · rw [if_neg hge]
        rw [sumFrom_set_gt k.buckets r k.proxLimit b (by omega)]
        exact hsum
    have hspec := expand_spec (k.buckets.set r b)
      (k.params.proxBinSize : Int) r k.proxLimit
      (if r ≥ k.proxLimit then k.proxSize - 1 else k.proxSize)
      hps0 (by omega)
      (by
        intro i hi hir
        rw [getD_set_ne _ _ _ _ hir]
        exact hgap i hi)
    unfold Inv
    dsimp only
    refine ⟨hlen', by omega, hspec.2.1, ?_, ?_, hcap'⟩
    · intro i hi
      by_cases hir : i = r
      · subst hir
        rcases hspec.2.2.1 with h0 | hright
        · omega
        · omega
      · exact hspec.2.2.2 i hi hir
    · intro h0
      rcases hspec.2.2.1 with hz | hright
      · omega
      · exact hright.1

/-- A Join step preserves the invariant (and the parameters). -/
theorem Inv_on (k : Kademlia) (node : Node)
    (cb : Option (NodeRecord → Node → Option String)) (now : Int)
    (hpbs : 1 ≤ k.params.proxBinSize) (hInv : Inv k) :
    Inv (On k node cb now).table ∧ (On k node cb now).table.params =
      k.params := by
  have hIlt : proximityBin k node.addr < k.buckets.length := by
    rw [hInv.1]
    exact Nat.lt_succ_of_le (proximityBin_le k node.addr)
  rcases hcb : cbValue k node cb with _ | e
  · by_cases hlt : (k.buckets.getD (proximityBin k node.addr) []).length <
        k.params.bucketSize
    · rw [On_eq_append k node cb now hcb hlt]
      constructor
      · exact Inv_setProxLimit_add k (proximityBin k node.addr)
          (k.buckets.getD (proximityBin k node.addr) [] ++ [node]) _ hInv
          hpbs hIlt (by simp) (by rw [List.length_append]; simpa using hlt)
      · show (setProxLimit _ _ _).params = k.params
        rw [setProxLimit_params]
    · rcases hsc : scanIdlest now k.params.maxIdleInterval
          (k.buckets.getD (proximityBin k node.addr) []) with _ | pd
      · rw [On_eq_bucketfull k node cb now hcb hlt hsc]
        exact ⟨hInv, rfl⟩
      · obtain ⟨pos, d⟩ := pd
        rw [On_eq_replace k node cb now pos d hcb hlt hsc]
        refine ⟨?_, rfl⟩
        exact Inv_set_same_length k (proximityBin k node.addr)
          ((k.buckets.getD (proximityBin k node.addr) []).set pos node) _ _
          hInv hIlt (List.length_set _ _ _)
  · rw [On_eq_cberr k node cb now e hcb]
    exact ⟨hInv, rfl⟩

/-- A successful Leave step preserves the invariant (and the
parameters). -/
theorem Inv_off (k k1 : Kademlia) (node : Node)
    (hpbs : 1 ≤ k.params.proxBinSize) (hInv : Inv k)
    (hoff : Off k node = some k1) : Inv k1 ∧ k1.params = k.params := by
  have hIlt : proximityBin k node.addr < k.buckets.length := by
    rw [hInv.1]
    exact Nat.lt_succ_of_le (proximityBin_le k node.addr)
  rcases hdb : dbFind k.db node.addr with _ | rec0
  · rw [Off_eq_none k node hdb] at hoff
    cases hoff
  · rcases hrm : removeFirst node.addr
        (k.buckets.getD (proximityBin k node.addr) []) with _ | b1
    · rw [Off_eq_absent k node rec0 hrm hdb] at hoff
      cases Option.some.inj hoff
      exact ⟨hInv, rfl⟩
    · rw [Off_eq_found k node b1 rec0 hrm hdb] at hoff
      cases Option.some.inj hoff
      constructor
      · exact Inv_setProxLimit_remove k (proximityBin k node.addr) b1 hInv
          hpbs hIlt (removeFirst_length node.addr _ b1 hrm)
      · show (setProxLimit _ _ _).params = k.params
        rw [setProxLimit_params]

/-- The fresh table satisfies the invariant. -/
theorem Inv_init (addr : Address) (params : KadParams) :
    Inv (New addr params) := by
  refine ⟨?_, Nat.zero_le _, ?_, ?_, ?_, ?_⟩
  · show (List.replicate (params.maxProx + 1) ([] : List Node)).length =
      params.maxProx + 1
    rw [List.length_replicate]
  · show (0 : Int) = (sumFrom (List.replicate (params.maxProx + 1) []) 0 : Int)
    rw [sumFrom_replicate_nil]
    rfl
  · intro i hi
    exact (Nat.not_lt_zero i hi).elim
  · intro h
    exact (Nat.lt_irrefl 0 h).elim
  · intro i
    show ((List.replicate (params.maxProx + 1)
      ([] : List Node)).getD i []).length ≤ params.bucketSize
    rw [getD_replicate_nil]
    exact Nat.zero_le _

/-- Every reachable state satisfies the invariant (when `ProxBinSize` is
positive, as in the default configuration — with `ProxBinSize = 0` the
Go contraction loop would index past the bucket array and panic). -/
theorem reachable_inv (addr : Address) (params : KadParams) (k : Kademlia)
    (hpbs : 1 ≤ params.proxBinSize) (h : Reachable addr params k) :
    Inv k ∧ k.params = params := by
  induction h with
  | init => exact ⟨Inv_init addr params, rfl⟩
  | stepOn k node cb now _ ih =>
    have hp : 1 ≤ k.params.proxBinSize := by rw [ih.2]; exact hpbs
    have := Inv_on k node cb now hp ih.1
    exact ⟨this.1, this.2.trans ih.2⟩
  | stepOff k k1 node _ hoff ih =>
    have hp : 1 ≤ k.params.proxBinSize := by rw [ih.2]; exact hpbs
    have := Inv_off k k1 node hp ih.1 hoff
    exact ⟨this.1, this.2.trans ih.2⟩

/-- The capacity bound alone needs no assumption on `ProxBinSize`:
`setProxLimit` never touches the buckets, and the three structural
changes (append below capacity, replace in place, remove) all keep every
bucket within `BucketSize`. -/
theorem cap_reachable (addr : Address) (params : KadParams) (k : Kademlia)
    (h : Reachable addr params k) :
    k.buckets.length = k.params.maxProx + 1 ∧
    (∀ i, (k.buckets.getD i []).length ≤ k.params.bucketSize) := by
  induction h with
  | init =>
    constructor
    · show (List.replicate (params.maxProx + 1) ([] : List Node)).length =
        params.maxProx + 1
      rw [List.length_replicate]
    · intro i
      show ((List.replicate (params.maxProx + 1)
        ([] : List Node)).getD i []).length ≤ params.bucketSize
      rw [getD_replicate_nil]
      exact Nat.zero_le _
  | stepOn k node cb now _ ih =>
    have hIlt : proximityBin k node.addr < k.buckets.length := by
      rw [ih.1]
      exact Nat.lt_succ_of_le (proximityBin_le k node.addr)
    rcases hcb : cbValue k node cb with _ | e
    · by_cases hlt : (k.buckets.getD (proximityBin k node.addr) []).length <
          k.params.bucketSize
      · rw [On_eq_append k node cb now hcb hlt]
        dsimp only
        rw [setProxLimit_buckets, setProxLimit_params]
        dsimp only
        constructor
        · rw [List.length_set]
          exact ih.1
        · intro i
          by_cases hir : i = proximityBin k node.addr
          · subst hir
            rw [getD_set_self _ _ _ hIlt, List.length_append]
            simpa using hlt
          · rw [getD_set_ne _ _ _ _ hir]
            exact ih.2 i
      · rcases hsc : scanIdlest now k.params.maxIdleInterval
            (k.buckets.getD (proximityBin k node.addr) []) with _ | pd
        · rw [On_eq_bucketfull k node cb now hcb hlt hsc]
          exact ih
        · obtain ⟨pos, d⟩ := pd
          rw [On_eq_replace k node cb now pos d hcb hlt hsc]
          dsimp only
          constructor
          · rw [List.length_set]
            exact ih.1
          · intro i
            by_cases hir : i = proximityBin k node.addr
            · subst hir
              rw [getD_set_self _ _ _ hIlt, List.length_set]
              exact ih.2 _
            · rw [getD_set_ne _ _ _ _ hir]
              exact ih.2 i
    · rw [On_eq_cberr k node cb now e hcb]
      exact ih
  | stepOff k k1 node _ hoff ih =>
    have hIlt : proximityBin k node.addr < k.buckets.length := by
      rw [ih.1]
      exact Nat.lt_succ_of_le (proximityBin_le k node.addr)
    rcases hdb : dbFind k.db node.addr with _ | rec0
    · rw [Off_eq_none k node hdb] at hoff
      cases hoff
    · rcases hrm : removeFirst node.addr
          (k.buckets.getD (proximityBin k node.addr) []) with _ | b1
      · rw [Off_eq_absent k node rec0 hrm hdb] at hoff
        cases Option.some.inj hoff
        exact ih
      · rw [Off_eq_found k node b1 rec0 hrm hdb] at hoff
        cases Option.some.inj hoff
        have hlb := removeFirst_length node.addr _ b1 hrm
        dsimp only
        rw [setProxLimit_buckets, setProxLimit_params]
        dsimp only
        constructor
        · rw [List.length_set]
          exact ih.1
        · intro i
          by_cases hir : i = proximityBin k node.addr
          · subst hir
            rw [getD_set_self _ _ _ hIlt]
            have := ih.2 (proximityBin k node.addr)
            omega
          · rw [getD_set_ne _ _ _ _ hir]
            exact ih.2 i

/-! ## Claim C3: count consistency -/

/-- C3 counterexample.  The state reached by joining peers 1–4 (filling
bin 8) and then joining peer 5 at time 50000 — a Join that replaces an
idle peer in a full bucket — is reachable, yet has `count = 5` while the
bucket lengths sum to 4: the claimed equality `count = Σ bucket lengths`
fails, so a replacing Join does not preserve it. -/
theorem C3_count_counterexample :
    Reachable 0 NewDefaultKadParams tbl4r.table ∧
    tbl4r.err = none ∧
    tbl4r.table.count = 5 ∧
    ((tbl4r.table.buckets.map List.length).sum : Int) = 4 :=
  ⟨Reachable.stepOn _ _ _ _ (Reachable.stepOn _ _ _ _ (Reachable.stepOn _ _ _ _
      (Reachable.stepOn _ _ _ _ (Reachable.stepOn _ _ _ _ Reachable.init)))),
   by decide, by decide, by decide⟩

/-- C3 (amended).  In a table whose `count` equals the sum of the bucket
lengths, an appending Join and a Leave of a present peer preserve the
equality; a replacing Join (full bucket, successful eviction) leaves the
bucket lengths unchanged and makes `count` exceed the sum by exactly
one; the Leave later issued for the dropped — now absent — peer
decrements `count` without a structural change, restoring the
equality. -/
theorem C3_count_amended (k : Kademlia) (node : Node) (now : Int)
    (cb : Option (NodeRecord → Node → Option String))
    (hlen : k.buckets.length = k.params.maxProx + 1)
    (hbal : k.count = ((k.buckets.map List.length).sum : Int)) :
    ((k.buckets.getD (proximityBin k node.addr) []).length <
        k.params.bucketSize →
      (On k node cb now).err = none →
      (On k node cb now).table.count =
        (((On k node cb now).table.buckets.map List.length).sum : Int)) ∧
    (¬ (k.buckets.getD (proximityBin k node.addr) []).length <
        k.params.bucketSize →
      (On k node cb now).err = none →
      (On k node cb now).table.count =
        (((On k node cb now).table.buckets.map List.length).sum : Int) + 1) ∧
    (∀ k1, Off k node = some k1 →
      (removeFirst node.addr (k.buckets.getD (proximityBin k node.addr) [])
          ≠ none →
        k1.count = ((k1.buckets.map List.length).sum : Int)) ∧
      (removeFirst node.addr (k.buckets.getD (proximityBin k node.addr) [])
          = none →
        k1.count = ((k1.buckets.map List.length).sum : Int) - 1)) := by
  have hIlt : proximityBin k node.addr < k.buckets.length := by
    rw [hlen]
    exact Nat.lt_succ_of_le (proximityBin_le k node.addr)
  refine ⟨?_, ?_, ?_⟩
  · intro hlt herr
    rcases hcb : cbValue k node cb with _ | e
    · rw [On_eq_append k node cb now hcb hlt]
      simp only [setProxLimit_buckets]
      have hs := sum_map_length_set k.buckets (proximityBin k node.addr)
        (k.buckets.getD (proximityBin k node.addr) [] ++ [node]) hIlt
      simp only [List.length_append, List.length_singleton] at hs
      omega
    · rw [On_eq_cberr k node cb now e hcb] at herr
      simp at herr
  · intro hfull herr
    rcases hcb : cbValue k node cb with _ | e
    · rcases hsc : scanIdlest now k.params.maxIdleInterval
          (k.buckets.getD (proximityBin k node.addr) []) with _ | pd
      · rw [On_eq_bucketfull k node cb now hcb hfull hsc] at herr
        simp at herr
      · obtain ⟨pos, d⟩ := pd
        rw [On_eq_replace k node cb now pos d hcb hfull hsc]
        have hs := sum_map_length_set k.buckets (proximityBin k node.addr)
          ((k.buckets.getD (proximityBin k node.addr) []).set pos node) hIlt
        rw [List.length_set] at hs
        dsimp only
        omega
    · rw [On_eq_cberr k node cb now e hcb] at herr
      simp at herr
  · intro k1 hoff
    rcases hdb : dbFind k.db node.addr with _ | rec0
    · rw [Off_eq_none k node hdb] at hoff
      cases hoff
    · constructor
      · intro hpresent
        rcases hrm : removeFirst node.addr
            (k.buckets.getD (proximityBin k node.addr) []) with _ | b1
        · exact absurd hrm hpresent
        · rw [Off_eq_found k node b1 rec0 hrm hdb] at hoff
          cases Option.some.inj hoff
          simp only [setProxLimit_buckets]
          have hlb := removeFirst_length node.addr _ b1 hrm
          have hs := sum_map_length_set k.buckets
            (proximityBin k node.addr) b1 hIlt
          omega
      · intro habsent
        rw [Off_eq_absent k node rec0 habsent hdb] at hoff
        cases Option.some.inj hoff
        dsimp only
        omega

/-- Witness for C3 (amended) at the concrete full-bucket state
`tbl4`. -/
theorem C3_count_amended_witness :
    (tbl4.buckets.length = tbl4.params.maxProx + 1) ∧
    (tbl4.count = ((tbl4.buckets.map List.length).sum : Int)) ∧
    (((tbl4.buckets.getD (proximityBin tbl4 (nd 5).addr) []).length <
        tbl4.params.bucketSize →
      (On tbl4 (nd 5) none 50000).err = none →
      (On tbl4 (nd 5) none 50000).table.count =
        (((On tbl4 (nd 5) none 50000).table.buckets.map List.length).sum :
          Int)) ∧
    (¬ (tbl4.buckets.getD (proximityBin tbl4 (nd 5).addr) []).length <
        tbl4.params.bucketSize →
      (On tbl4 (nd 5) none 50000).err = none →
      (On tbl4 (nd 5) none 50000).table.count =
        (((On tbl4 (nd 5) none 50000).table.buckets.map List.length).sum :
          Int) + 1) ∧
    (∀ k1, Off tbl4 (nd 5) = some k1 →
      (removeFirst (nd 5).addr
          (tbl4.buckets.getD (proximityBin tbl4 (nd 5).addr) []) ≠ none →
        k1.count = ((k1.buckets.map List.length).sum : Int)) ∧
      (removeFirst (nd 5).addr
          (tbl4.buckets.getD (proximityBin tbl4 (nd 5).addr) []) = none →
        k1.count = ((k1.buckets.map List.length).sum : Int) - 1))) :=
  ⟨by decide, by decide,
   C3_count_amended tbl4 (nd 5) 50000 none (by decide) (by decide)⟩

/-! ## Claim C6: Leave on an absent peer -/

/-- C6 counterexample.  Join peer 7 into a fresh table and leave it
again: the table `tblI` is structurally empty (zero live peers) and
peer 7 is absent from every bucket, yet a second `Off` for peer 7
succeeds and decrements `count` to `-1`, strictly below the true number
of live peers (0) — refuting the claim that Leave on an absent peer
"does not decrement count below the true number of live peers".  The
buckets, `proxLimit` and `proxSize` are indeed left unchanged. -/
theorem C6_off_absent_counterexample :
    (Off tblH (nd 7)).isSome ∧
    tblI.buckets = List.replicate 9 [] ∧
    tblI.count = 0 ∧
    (Off tblI (nd 7)).map Kademlia.count = some (-1) ∧
    (Off tblI (nd 7)).map Kademlia.buckets = some tblI.buckets ∧
    (Off tblI (nd 7)).map Kademlia.proxLimit = some tblI.proxLimit ∧
    (Off tblI (nd 7)).map Kademlia.proxSize = some tblI.proxSize := by
  refine ⟨by decide, by decide, by decide, by decide, by decide, by decide,
    by decide⟩

/-- C6 (amended).  `Off` on a peer absent from every bucket (but known
to the registry, so the lookup does not crash) leaves the buckets,
`proxLimit` and `proxSize` unchanged — but still decrements `count` by
one; the decrement pairs with the extra increment a replacing Join made
when it dropped that peer. -/
theorem C6_off_absent_amended (k : Kademlia) (node : Node)
    (habs : removeFirst node.addr
      (k.buckets.getD (proximityBin k node.addr) []) = none)
    (hdb : (dbFind k.db node.addr).isSome) :
    ∃ k1, Off k node = some k1 ∧ k1.buckets = k.buckets ∧
      k1.proxLimit = k.proxLimit ∧ k1.proxSize = k.proxSize ∧
      k1.count = k.count - 1 := by
  rcases h : dbFind k.db node.addr with _ | rec0
  · rw [h] at hdb
    simp at hdb
  · rw [Off_eq_absent k node rec0 habs h]
    exact ⟨_, rfl, rfl, rfl, rfl, rfl⟩

/-! ## Claim C7: ordering and length of ClosestPeers -/

theorem ProxCmp_nonneg_iff (t a b : Address) :
    (0 ≤ ProxCmp t a b) ↔ (b ^^^ t ≤ a ^^^ t) := by
  unfold ProxCmp
  by_cases h1 : a ^^^ t < b ^^^ t
  · rw [if_pos h1]
    constructor
    · intro h
      exact absurd h (by decide)
    · intro h
      exact absurd h1 (Nat.not_lt.mpr h)
  · rw [if_neg h1]
    by_cases h2 : b ^^^ t < a ^^^ t
    · rw [if_pos h2]
      constructor
      · intro _
        exact Nat.le_of_lt h2
      · intro _
        decide
    · rw [if_neg h2]
      constructor
      · intro _
        exact Nat.le_of_not_lt h1
      · intro _
        decide

theorem searchIdx_def (target : Address) (node : Node) (nodes : List Node) :
    searchIdx target node nodes =
      nodes.findIdx
        (fun q => decide (0 ≤ ProxCmp target q.addr node.addr)) := rfl

theorem findIdx_take_false (p : Node → Bool) :
    ∀ (l : List Node) (a : Node), a ∈ l.take (l.findIdx p) →
      p a = false := by
  intro l
  induction l with
  | nil => intro a ha; simp at ha
  | cons x xs ih =>
    intro a ha
    rw [List.findIdx_cons] at ha
    by_cases hx : p x
    · rw [hx] at ha
      simp at ha
    · rw [Bool.not_eq_true] at hx
      rw [hx] at ha
      simp only [cond_false, List.take_cons] at ha
      rcases List.mem_cons.mp ha with ha | ha
      · subst ha
        exact hx
      · exact ih a ha

theorem findIdx_drop_head (p : Node → Bool) :
    ∀ (l : List Node), l.findIdx p < l.length →
      ∃ h t, l.drop (l.findIdx p) = h :: t ∧ p h = true := by
  intro l
  induction l with
  | nil => intro h; simp at h
  | cons x xs ih =>
    intro hlt
    rw [List.findIdx_cons] at hlt ⊢
    by_cases hx : p x
    · rw [hx] at hlt ⊢
      exact ⟨x, xs, rfl, hx⟩
    · rw [Bool.not_eq_true] at hx
      rw [hx] at hlt ⊢
      simp only [cond_false] at hlt ⊢
      have hlt2 : xs.findIdx p < xs.length := by simpa using hlt
      obtain ⟨h, t, heq, hp⟩ := ih hlt2
      exact ⟨h, t, by simpa using heq, hp⟩

/-- The three shapes a `push` result can take: ordered insertion when
below the cap, insertion with the last element dropped when at the cap,
and no change when at the cap and the new node sorts last. -/
theorem push_cases (target : Address) (nodes : List Node) (node : Node)
    (max : Nat) :
    (nodes.length < max ∧
      push target nodes node max =
        nodes.take (searchIdx target node nodes) ++ node ::
          nodes.drop (searchIdx target node nodes)) ∨
    (¬ nodes.length < max ∧ searchIdx target node nodes < nodes.length ∧
      push target nodes node max =
        nodes.take (searchIdx target node nodes) ++ node ::
          (nodes.drop (searchIdx target node nodes)).dropLast) ∨
    (¬ nodes.length < max ∧ ¬ searchIdx target node nodes < nodes.length ∧
      push target nodes node max = nodes) := by
  have hle : searchIdx target node nodes ≤ nodes.length :=
    List.findIdx_le_length _
  by_cases hlen : nodes.length < max
  · left
    refine ⟨hlen, ?_⟩
    simp only [push]
    rw [if_pos hlen]
    have hixlt : searchIdx target node nodes < (nodes ++ [node]).length := by
      rw [List.length_append]
      simp only [List.length_cons, List.length_nil]
      omega
    rw [if_pos hixlt]
    rw [List.take_append_of_le_length hle,
      List.drop_append_of_le_length hle, List.dropLast_concat]
  · by_cases hixlt : searchIdx target node nodes < nodes.length
    · right; left
      refine ⟨hlen, hixlt, ?_⟩
      simp only [push]
      rw [if_neg hlen, if_pos hixlt]
    · right; right
      refine ⟨hlen, hixlt, ?_⟩
      simp only [push]
      rw [if_neg hlen, if_neg hixlt]

/-- Inserting at the `sort.Search` index preserves sortedness by
distance, for either suffix shape. -/
theorem insert_at_search_sorted (target : Address) (nodes : List Node)
    (node : Node) (hs : DistSorted target nodes) (B1 : List Node)
    (hB1 : B1.Sublist (nodes.drop (searchIdx target node nodes))) :
    DistSorted target
      (nodes.take (searchIdx target node nodes) ++ node :: B1) := by
  rw [searchIdx_def] at hB1 ⊢
  have hsplit : nodes.take
        (nodes.findIdx (fun q => decide (0 ≤ ProxCmp target q.addr node.addr)))
      ++ nodes.drop
        (nodes.findIdx (fun q => decide (0 ≤ ProxCmp target q.addr node.addr)))
      = nodes :=
    List.take_append_drop _ nodes
  have hPairs : List.Pairwise
      (fun a b : Node => a.addr ^^^ target ≤ b.addr ^^^ target)
      (nodes.take
        (nodes.findIdx (fun q => decide (0 ≤ ProxCmp target q.addr node.addr)))
      ++ nodes.drop
        (nodes.findIdx
          (fun q => decide (0 ≤ ProxCmp target q.addr node.addr)))) := by
    rw [hsplit]
    exact hs
  obtain ⟨PA, PB, cross⟩ := List.pairwise_append.mp hPairs
  have beforeKey : ∀ a ∈ nodes.take
      (nodes.findIdx (fun q => decide (0 ≤ ProxCmp target q.addr node.addr))),
      a.addr ^^^ target < node.addr ^^^ target := by
    intro a ha
    have hfalse := findIdx_take_false _ nodes a ha
    rw [decide_eq_false_iff_not] at hfalse
    rw [ProxCmp_nonneg_iff] at hfalse
    exact Nat.lt_of_not_le hfalse
  have afterKey : ∀ b ∈ nodes.drop
      (nodes.findIdx (fun q => decide (0 ≤ ProxCmp target q.addr node.addr))),
      node.addr ^^^ target ≤ b.addr ^^^ target := by
    intro b hb
    by_cases hlt : nodes.findIdx
        (fun q => decide (0 ≤ ProxCmp target q.addr node.addr)) <
        nodes.length
    · obtain ⟨h, t, heq, hp⟩ := findIdx_drop_head _ nodes hlt
      rw [decide_eq_true_iff] at hp
      rw [ProxCmp_nonneg_iff] at hp
      rw [heq] at hb PB
      rcases List.mem_cons.mp hb with hb | hb
      · subst hb
        exact hp
      · exact Nat.le_trans hp ((List.pairwise_cons.mp PB).1 b hb)
    · rw [List.drop_eq_nil_of_le (Nat.le_of_not_lt hlt)] at hb
      simp at hb
  refine List.pairwise_append.mpr ⟨PA, ?_, ?_⟩
  · refine List.pairwise_cons.mpr ⟨?_, ?_⟩
    · intro b hb
      exact afterKey b (hB1.mem hb)
    · exact List.Pairwise.sublist hB1 PB
  · intro a ha b hb
    rcases List.mem_cons.mp hb with hb | hb
    · subst hb
      exact Nat.le_of_lt (beforeKey a ha)
    · exact cross a ha b (hB1.mem hb)

theorem push_sorted (target : Address) (nodes : List Node) (node : Node)
    (max : Nat) (hs : DistSorted target nodes) :
    DistSorted target (push target nodes node max) := by
  rcases push_cases target nodes node max with ⟨_, heq⟩ | ⟨_, _, heq⟩ |
      ⟨_, _, heq⟩ <;> rw [heq]
  · exact insert_at_search_sorted target nodes node hs _
      (List.Sublist.refl _)
  · exact insert_at_search_sorted target nodes node hs _
      (List.dropLast_sublist _)
  · exact hs

theorem push_length_le (target : Address) (nodes : List Node) (node : Node)
    (max : Nat) (h : nodes.length ≤ max) :
    (push target nodes node max).length ≤ max := by
  have hle : searchIdx target node nodes ≤ nodes.length :=
    List.findIdx_le_length _
  rcases push_cases target nodes node max with ⟨hlt, heq⟩ |
      ⟨hge, hixlt, heq⟩ | ⟨_, _, heq⟩ <;> rw [heq]
  · rw [List.length_append, List.length_cons, List.length_take,
      List.length_drop]
    omega
  · rw [List.length_append, List.length_cons, List.length_take,
      List.length_dropLast, List.length_drop]
    omega
  · exact h

theorem foldl_push_sorted_length (target : Address) (limit : Nat) :
    ∀ (bucket nodes : List Node), DistSorted target nodes →
      nodes.length ≤ limit →
      DistSorted target
        (bucket.foldl (fun acc p => push target acc p limit) nodes) ∧
      (bucket.foldl (fun acc p => push target acc p limit) nodes).length ≤
        limit := by
  intro bucket
  induction bucket with
  | nil => intro nodes hs hl; exact ⟨hs, hl⟩
  | cons q rest ih =>
    intro nodes hs hl
    exact ih _ (push_sorted target nodes q limit hs)
      (push_length_le target nodes q limit hl)

theorem fcLoop_sorted_length (k : Kademlia) (target : Address)
    (minv limit : Nat) (mz : Bool) (po : Nat) :
    ∀ (fuel : Nat) (index step : Int) (nodes : List Node) (n : Nat)
      (l : List Node),
      DistSorted target nodes → nodes.length ≤ limit →
      fcLoop k target minv limit mz po fuel index step nodes n = some l →
      DistSorted target l ∧ l.length ≤ limit := by
  intro fuel
  induction fuel with
  | zero =>
    intro index step nodes n l _ _ h
    simp [fcLoop] at h
  | succ fuel ih =>
    intro index step nodes n l hs hl h
    simp only [fcLoop] at h
    split at h
    · cases h
      exact ⟨hs, hl⟩
    · split at h
      · cases h
      · have hfold := foldl_push_sorted_length target limit
          (k.buckets.getD index.toNat []) nodes hs hl
        split at h
        · cases h
          exact hfold
        · split at h
          · exact ih _ _ _ _ _ hfold.1 hfold.2 h
          · exact ih _ _ _ _ _ hfold.1 hfold.2 h

theorem sortedByDistanceTo_of_DistSorted (target : Address) :
    ∀ l, DistSorted target l → sortedByDistanceTo target l = true := by
  intro l
  induction l with
  | nil => intro _; rfl
  | cons a rest ih =>
    intro hs
    cases rest with
    | nil => rfl
    | cons b rest2 =>
      show (decide (0 ≤ ProxCmp target b.addr a.addr) &&
        sortedByDistanceTo target (b :: rest2)) = true
      rw [Bool.and_eq_true]
      constructor
      · rw [decide_eq_true_iff, ProxCmp_nonneg_iff]
        exact (List.pairwise_cons.mp hs).1 b (List.mem_cons_self b rest2)
      · exact ih (List.pairwise_cons.mp hs).2

/-- C7.  Closest-peers ordering and length: the sequence `FindClosest`
returns is sorted by non-decreasing true XOR distance to the target
(checked by the source's own `sortedByDistanceTo`), and its length never
exceeds `max` (or the implementation cap `maxPeers` when
`max == 0`). -/
theorem C7_closest_sorted_bounded (k : Kademlia) (target : Address)
    (max : Nat) (l : List Node)
    (h : FindClosest k target max = some l) :
    sortedByDistanceTo target l = true ∧
    l.length ≤ (if max = 0 then maxPeers else max) := by
  simp only [FindClosest] at h
  have := fcLoop_sorted_length k target (if max = 0 then 1 else max)
    (if max = 0 then maxPeers else max) (max == 0) (proximityBin k target)
    (2 * k.params.maxProx + 4) (proximityBin k target) 1 [] 0 l
    List.Pairwise.nil (by simp) h
  exact ⟨sortedByDistanceTo_of_DistSorted target l this.1, this.2⟩

/-- Witness for C7: querying the four-peer table `tbl4` for the three
peers closest to target 6 yields addresses 4, 2, 3 — sorted by XOR
distance (2, 4, 5) and capped at three. -/
theorem C7_closest_sorted_bounded_witness :
    (FindClosest tbl4 6 3 = some [nd 4, nd 2, nd 3]) ∧
    (sortedByDistanceTo 6 [nd 4, nd 2, nd 3] = true ∧
      ([nd 4, nd 2, nd 3] : List Node).length ≤
        (if (3 : Nat) = 0 then maxPeers else 3)) :=
  ⟨by decide, C7_closest_sorted_bounded tbl4 6 3 _ (by decide)⟩

/-! ## Claim C10: termination and index safety of FindClosest -/

/-- Downward phase: with `step = -1` and the index strictly below
`MaxProx`, the loop ends (returning `some`) within `index + 2`
iterations: every bucket access stays in range and the index only
decreases until it passes 0 or the loop breaks. -/
theorem fcLoop_down_some (k : Kademlia) (target : Address)
    (minv limit : Nat) (mz : Bool) (po : Nat) :
    ∀ (fuel : Nat) (index : Int) (nodes : List Node) (n : Nat),
      -1 ≤ index →
      index < (k.params.maxProx : Int) →
      index + 2 ≤ (fuel : Int) →
      (fcLoop k target minv limit mz po fuel index (-1) nodes n).isSome := by
  intro fuel
  induction fuel with
  | zero =>
    intro index nodes n hm1 _ h2
    omega
  | succ fuel ih =>
    intro index nodes n hm1 hlt hfuel
    simp only [fcLoop]
    by_cases h0 : index < 0
    · rw [if_pos h0]
      rfl
    · rw [if_neg h0]
      rw [if_neg (by omega : ¬ (k.params.maxProx : Int) < index)]
      by_cases hbrk : minv ≤ n + (k.buckets.getD index.toNat []).length
      · rw [if_pos ⟨hbrk, Or.inl (by norm_num)⟩]
        rfl
      · rw [if_neg (fun hc => hbrk hc.1)]
        rw [if_neg (by omega : ¬ index = (k.params.maxProx : Int))]
        exact ih (index + -1) _ _ (by omega) (by omega) (by omega)

/-- Upward phase: with `step = 1`, an in-range index and an in-range
target bin, the loop ends within `(MaxProx - index) + po + 3`
iterations: the index climbs to at most `MaxProx`, turns around exactly
once, and the downward phase finishes. -/
theorem fcLoop_up_some (k : Kademlia) (target : Address)
    (minv limit : Nat) (mz : Bool) (po : Nat) :
    ∀ (fuel : Nat) (index : Int) (nodes : List Node) (n : Nat),
      0 ≤ index → index ≤ (k.params.maxProx : Int) →
      po ≤ k.params.maxProx →
      ((k.params.maxProx : Int) - index) + po + 3 ≤ (fuel : Int) →
      (fcLoop k target minv limit mz po fuel index 1 nodes n).isSome := by
  intro fuel
  induction fuel with
  | zero =>
    intro index nodes n _ _ _ h
    omega
  | succ fuel ih =>
    intro index nodes n h0 hle hpo hfuel
    simp only [fcLoop]
    rw [if_neg (by omega : ¬ index < 0)]
    rw [if_neg (by omega : ¬ (k.params.maxProx : Int) < index)]
    by_cases hbrk : minv ≤ n + (k.buckets.getD index.toNat []).length ∧
        ((1 : Int) < 0 ∨ mz = true)
    · rw [if_pos hbrk]
      rfl
    · rw [if_neg hbrk]
      by_cases hturn : index = (k.params.maxProx : Int)
      · rw [if_pos hturn]
        apply fcLoop_down_some
        · omega
        · omega
        · omega
      · rw [if_neg hturn]
        exact ih (index + 1) _ _ (by omega) (by omega) hpo (by omega)

/-- C10.  `FindClosest` terminates for every table state, target and
`max`: the fuelled scan loop returns `some`, meaning it neither runs out
of fuel (the index climbs from the target's bin to at most `MaxProx`,
turns around exactly once, and then strictly decreases past 0) nor
indexes the bucket array outside `[0, MaxProx]` (the `none` marker for
an out-of-range access is never produced). -/
theorem C10_findclosest_terminates (k : Kademlia) (target : Address)
    (max : Nat) : (FindClosest k target max).isSome := by
  simp only [FindClosest]
  have hpo := proximityBin_le k target
  apply fcLoop_up_some
  · omega
  · exact_mod_cast hpo
  · exact hpo
  · omega

/-! ## Claim C8: early-stop rule of the FindClosest scan -/

/-- Downward-phase equivalence: from a bin `i` strictly below `MaxProx`
with `step = -1`, the loop computes exactly the reference `downFrom`
descent (scan a bin, stop once at least `minv` peers are collected,
else continue toward bin 0). -/
theorem fcLoop_down_eq (k : Kademlia) (target : Address)
    (minv limit : Nat) (po : Nat) :
    ∀ (i : Nat) (fuel : Nat) (nodes : List Node) (n : Nat),
      i < k.params.maxProx →
      i + 2 ≤ fuel →
      fcLoop k target minv limit false po fuel (i : Int) (-1) nodes n =
        some (downFrom k target limit minv i (nodes, n)) := by
  intro i
  induction i with
  | zero =>
    intro fuel nodes n hlt hfuel
    cases fuel with
    | zero => omega
    | succ f =>
      simp only [fcLoop]
      rw [if_neg (by omega : ¬ ((0 : Nat) : Int) < 0)]
      rw [if_neg (by exact_mod_cast Nat.not_lt.mpr (Nat.zero_le _) :
        ¬ (k.params.maxProx : Int) < ((0 : Nat) : Int))]
      simp only [Int.toNat_natCast]
      by_cases hbrk : minv ≤ n + (k.buckets.getD 0 []).length
      · rw [if_pos ⟨hbrk, Or.inl (by norm_num)⟩]
        simp only [downFrom, pushBucket]
      · rw [if_neg (fun hc => hbrk hc.1)]
        rw [if_neg (by omega : ¬ ((0 : Nat) : Int) = (k.params.maxProx : Int))]
        cases f with
        | zero => omega
        | succ f2 =>
          simp only [fcLoop]
          rw [if_pos (by omega : ((0 : Nat) : Int) + -1 < 0)]
          simp only [downFrom, pushBucket]
  | succ i ih =>
    intro fuel nodes n hlt hfuel
    cases fuel with
    | zero => omega
    | succ f =>
      simp only [fcLoop]
      rw [if_neg (by omega : ¬ ((i + 1 : Nat) : Int) < 0)]
      rw [if_neg (by omega : ¬ (k.params.maxProx : Int) < ((i + 1 : Nat) : Int))]
      simp only [Int.toNat_natCast]
      by_cases hbrk : minv ≤ n + (k.buckets.getD (i + 1) []).length
      · rw [if_pos ⟨hbrk, Or.inl (by norm_num)⟩]
        simp only [downFrom, pushBucket]
        rw [if_pos hbrk]
      · rw [if_neg (fun hc => hbrk hc.1)]
        rw [if_neg (by omega :
          ¬ ((i + 1 : Nat) : Int) = (k.params.maxProx : Int))]
        have hcast : ((i + 1 : Nat) : Int) + -1 = (i : Int) := by
          push_cast
          ring
        rw [hcast]
        rw [ih f _ _ (by omega) (by omega)]
        simp only [downFrom, pushBucket]
        rw [if_neg hbrk]

/-- Upward-phase equivalence: with `max ≠ 0` (so the break condition
cannot fire while `step = 1`) the loop scans every bin from `i` to
`MaxProx` unconditionally and then runs the reference descent from
`po - 1` (or stops at once when `po = 0`). -/
theorem fcLoop_up_eq (k : Kademlia) (target : Address)
    (minv limit : Nat) (po : Nat) (hpo : po ≤ k.params.maxProx) :
    ∀ (m i : Nat), i + m = k.params.maxProx →
      ∀ (fuel : Nat) (nodes : List Node) (n : Nat),
        m + po + 3 ≤ fuel →
        fcLoop k target minv limit false po fuel (i : Int) 1 nodes n =
          some (afterUp k target limit minv po
            ((List.range' i (m + 1)).foldl
              (pushBucket k target limit) (nodes, n))) := by
  intro m
  induction m with
  | zero =>
    intro i hi fuel nodes n hfuel
    cases fuel with
    | zero => omega
    | succ f =>
      simp only [fcLoop]
      rw [if_neg (by omega : ¬ ((i : Nat) : Int) < 0)]
      rw [if_neg (by omega : ¬ (k.params.maxProx : Int) < ((i : Nat) : Int))]
      simp only [Int.toNat_natCast]
      rw [if_neg (fun hc => by
        rcases hc.2 with h | h
        · norm_num at h
        · cases h)]
      rw [if_pos (by omega : ((i : Nat) : Int) = (k.params.maxProx : Int))]
      rcases hpo2 : po with _ | p
      · subst hpo2
        cases f with
        | zero => omega
        | succ f2 =>
          simp only [fcLoop]
          rw [if_pos (by omega : ((0 : Nat) : Int) - 1 < 0)]
          simp only [afterUp, List.range', List.foldl, pushBucket]
      · subst hpo2
        have hcast : ((p + 1 : Nat) : Int) - 1 = (p : Int) := by
          push_cast
          ring
        rw [hcast]
        rw [fcLoop_down_eq k target minv limit (p + 1) p f _ _ (by omega)
          (by omega)]
        simp only [afterUp, List.range', List.foldl, pushBucket]
  | succ m ih =>
    intro i hi fuel nodes n hfuel
    cases fuel with
    | zero => omega
    | succ f =>
      simp only [fcLoop]
      rw [if_neg (by omega : ¬ ((i : Nat) : Int) < 0)]
      rw [if_neg (by omega : ¬ (k.params.maxProx : Int) < ((i : Nat) : Int))]
      simp only [Int.toNat_natCast]
      rw [if_neg (fun hc => by
        rcases hc.2 with h | h
        · norm_num at h
        · cases h)]
      rw [if_neg (by omega : ¬ ((i : Nat) : Int) = (k.params.maxProx : Int))]
      have hcast : ((i : Nat) : Int) + 1 = ((i + 1 : Nat) : Int) := by
        push_cast
        ring
      rw [hcast]
      rw [ih (i + 1) (by omega) f _ _ (by omega)]
      simp only [List.range', List.foldl, pushBucket]

/-! ## Claims C1, C2, C4: reachable-state invariants -/

/-- C1.  No-gap invariant: in every table state reachable from a fresh
table by Joins and Leaves, every bucket at a proximity order strictly
below `proxLimit` is non-empty — in particular every such bucket other
than the one that would hold the local node's own address.  (The
hypothesis `1 ≤ ProxBinSize` matches the default configuration; with
`ProxBinSize = 0` the Go contraction loop would index past the bucket
array and panic.) -/
theorem C1_no_gap (addr : Address) (params : KadParams) (k : Kademlia)
    (hpbs : 1 ≤ params.proxBinSize) (h : Reachable addr params k) :
    ∀ i, i < k.proxLimit → i ≠ proximityBin k k.addr →
      k.buckets.getD i [] ≠ [] := by
  intro i hi _
  exact ((reachable_inv addr params k hpbs h).1).2.2.2.1 i hi

/-- Witness for C1: after joining peers 1, 2, 3 (bin 8) and `2^255`
(bin 0), the contraction loop has raised `proxLimit` to 1, and bucket 0
(which is below `proxLimit` and is not the local node's own bin 8) is
indeed non-empty. -/
theorem C1_no_gap_witness :
    (1 ≤ NewDefaultKadParams.proxBinSize) ∧
    (0 < tbl5.proxLimit) ∧
    (0 ≠ proximityBin tbl5 tbl5.addr) ∧
    tbl5.buckets.getD 0 [] ≠ [] :=
  ⟨by decide, by decide, by decide,
   C1_no_gap 0 NewDefaultKadParams tbl5 (by decide)
    (Reachable.stepOn _ _ _ _ (Reachable.stepOn _ _ _ _
      (Reachable.stepOn _ _ _ _ (Reachable.stepOn _ _ _ _
        (Reachable.stepOn _ _ _ _ Reachable.init)))))
    0 (by decide) (by decide)⟩

/-- C2.  Core-size invariant: in every reachable state with
`proxLimit > 0`, the total occupancy of the buckets at proximity orders
`[proxLimit, MaxProx]` is at least `ProxBinSize`, and `proxSize` equals
exactly that total (the contraction loop never leaves the core smaller
than `ProxBinSize`, and the expansion loop restores the bound or drives
`proxLimit` to 0). -/
theorem C2_core_size (addr : Address) (params : KadParams) (k : Kademlia)
    (hpbs : 1 ≤ params.proxBinSize) (h : Reachable addr params k)
    (hpl : 0 < k.proxLimit) :
    (k.params.proxBinSize : Int) ≤
      (((k.buckets.drop k.proxLimit).map List.length).sum : Int) ∧
    k.proxSize =
      (((k.buckets.drop k.proxLimit).map List.length).sum : Int) := by
  obtain ⟨⟨hlen, hplM, hsum, hgap, hE, hcap⟩, hparams⟩ :=
    reachable_inv addr params k hpbs h
  have hdrop : sumFrom k.buckets k.proxLimit =
      ((k.buckets.drop k.proxLimit).map List.length).sum :=
    sumFrom_drop k.buckets k.proxLimit
  constructor
  · have hs := hE hpl
    rw [hsum, hdrop] at hs
    exact hs
  · rw [hsum, hdrop]

/-- Witness for C2 at the state `tbl5` (`proxLimit = 1`, a core of three
peers in bin 8, `ProxBinSize = 2`). -/
theorem C2_core_size_witness :
    (1 ≤ NewDefaultKadParams.proxBinSize) ∧
    (0 < tbl5.proxLimit) ∧
    ((tbl5.params.proxBinSize : Int) ≤
      (((tbl5.buckets.drop tbl5.proxLimit).map List.length).sum : Int) ∧
    tbl5.proxSize =
      (((tbl5.buckets.drop tbl5.proxLimit).map List.length).sum : Int)) :=
  ⟨by decide, by decide,
   C2_core_size 0 NewDefaultKadParams tbl5 (by decide)
    (Reachable.stepOn _ _ _ _ (Reachable.stepOn _ _ _ _
      (Reachable.stepOn _ _ _ _ (Reachable.stepOn _ _ _ _
        (Reachable.stepOn _ _ _ _ Reachable.init)))))
    (by decide)⟩

/-- C4.  Capacity bound: in every reachable state no bucket holds more
than `BucketSize` peers — `On` appends only when the bucket is below
`BucketSize` and otherwise replaces a member in place, never growing the
bucket. -/
theorem C4_capacity_bound (addr : Address) (params : KadParams)
    (k : Kademlia) (h : Reachable addr params k) :
    ∀ i, (k.buckets.getD i []).length ≤ k.params.bucketSize :=
  (cap_reachable addr params k h).2

/-- Witness for C4 at the state `tbl4`, whose bin 8 is exactly full. -/
theorem C4_capacity_bound_witness :
    (tbl4.buckets.getD 8 []).length ≤ tbl4.params.bucketSize ∧
    (tbl4.buckets.getD 8 []).length = 4 :=
  ⟨C4_capacity_bound 0 NewDefaultKadParams tbl4
    (Reachable.stepOn _ _ _ _ (Reachable.stepOn _ _ _ _
      (Reachable.stepOn _ _ _ _ (Reachable.stepOn _ _ _ _
        Reachable.init)))) 8,
   by decide⟩

/-- C8 counterexample.  In `tblQ` the target `2^252` maps to bin 3,
which already holds one peer, and bin 5 holds another.  With `max == 0`
the scan collects the bin-3 peer, immediately satisfies
`n >= min && (step < 0 || max == 0)` with `step` still `+1`, and breaks
without ever reversing direction — the bin-5 peer is never visited.
This refutes the claim that the scan stops early only after the
direction has reversed at least once and never stops while still moving
upward. -/
theorem C8_scan_counterexample :
    proximityBin tblQ (2 ^ 252) = 3 ∧
    tblQ.buckets.getD 5 [] = [nd (2 ^ 250)] ∧
    FindClosest tblQ (2 ^ 252) 0 = some [nd (2 ^ 252 + 1)] ∧
    nd (2 ^ 250) ∉ [nd (2 ^ 252 + 1)] :=
  ⟨by decide, by decide, by decide, by decide⟩

/-- C8 (amended).  For `max > 0` the scan stops early only after at
least `max` peers have been collected and the direction has reversed;
it never stops while still moving upward: `FindClosest` computes exactly
the two-phase reference walk that scans all bins `po..MaxProx`
unconditionally and only then descends from `po - 1` with the early-stop
check.  (For `max == 0` the disjunct `max == 0` in the break condition
lets the scan stop during the upward phase, as the counterexample
shows.) -/
theorem C8_scan_amended (k : Kademlia) (target : Address) (max : Nat)
    (hmax : 0 < max) :
    FindClosest k target max = some (twoPhase k target max) := by
  have hpo := proximityBin_le k target
  have hne : max ≠ 0 := by omega
  simp only [FindClosest, twoPhase]
  have hmz : (max == 0) = false := by
    simp [hne]
  rw [hmz, if_neg hne, if_neg hne]
  have heq := fcLoop_up_eq k target max max (proximityBin k target) hpo
    (k.params.maxProx - proximityBin k target) (proximityBin k target)
    (by omega) (2 * k.params.maxProx + 4) [] 0 (by omega)
  rw [heq]
  simp only [upAll]
  have hrange : k.params.maxProx - proximityBin k target + 1 =
      k.params.maxProx + 1 - proximityBin k target := by omega
  rw [hrange]

/-- Witness for C8 (amended): with `max = 2` on the same table `tblQ`,
the scan does reach bin 5 and the result agrees with the two-phase
reference walk. -/
theorem C8_scan_amended_witness :
    (0 < 2) ∧
    (FindClosest tblQ (2 ^ 252) 2 = some (twoPhase tblQ (2 ^ 252) 2)) ∧
    twoPhase tblQ (2 ^ 252) 2 = [nd (2 ^ 252 + 1), nd (2 ^ 250)] :=
  ⟨by decide, C8_scan_amended tblQ (2 ^ 252) 2 (by decide), by decide⟩

/-- Witness for C6 (amended): the second Leave of peer 7 on `tblI`. -/
theorem C6_off_absent_amended_witness :
    (removeFirst (nd 7).addr
      (tblI.buckets.getD (proximityBin tblI (nd 7).addr) []) = none) ∧
    ((dbFind tblI.db (nd 7).addr).isSome) ∧
    (∃ k1, Off tblI (nd 7) = some k1 ∧ k1.buckets = tblI.buckets ∧
      k1.proxLimit = tblI.proxLimit ∧ k1.proxSize = tblI.proxSize ∧
      k1.count = tblI.count - 1) :=
  ⟨by decide, by decide,
   C6_off_absent_amended tblI (nd 7) (by decide) (by decide)⟩

end Kad
